import Mathlib

/-!
Verification of the request-batching and grouping pipeline of
`pytriton/decorators.py`.

Requests are modelled as insertion-ordered association lists from input
names to tensors; a tensor is its leading (batch) axis of rows together
with the shape of one row.  Python's stable `list.sort` is modelled with a
stable insertion sort, `itertools.groupby` with a run-splitting function,
and Python's lexicographic tuple/string comparison with explicit boolean
comparators packaged with their order laws.
-/

namespace PyTriton

/-- A decidable linear order packaged as a boolean comparison, as used by
Python's `list.sort` on keys (totality, antisymmetry, transitivity). -/
structure DecLinOrd (K : Type) where
  le : K → K → Bool
  total : ∀ a b, le a b = true ∨ le b a = true
  antisymm : ∀ {a b}, le a b = true → le b a = true → a = b
  le_trans : ∀ {a b c}, le a b = true → le b c = true → le a c = true

theorem DecLinOrd.refl (o : DecLinOrd K) (a : K) : o.le a a = true := by
  rcases o.total a a with h | h <;> exact h

theorem DecLinOrd.not_le (o : DecLinOrd K) {a b : K} (h : o.le a b = false) :
    o.le b a = true ∧ a ≠ b := by
  rcases o.total a b with h' | h'
  · rw [h'] at h; cases h
  · refine ⟨h', fun he => ?_⟩
    subst he; rw [o.refl a] at h; cases h

/-- Comparator for natural numbers. -/
def natOrd : DecLinOrd Nat where
  le a b := decide (a ≤ b)
  total a b := by simpa using Nat.le_total a b
  antisymm := by intro a b h1 h2; simp at h1 h2; omega
  le_trans := by intro a b c h1 h2; simp at h1 h2 ⊢; omega

/-- Comparator for integers. -/
def intOrd : DecLinOrd Int where
  le a b := decide (a ≤ b)
  total a b := by simpa using Int.le_total a b
  antisymm := by intro a b h1 h2; simp at h1 h2; omega
  le_trans := by intro a b c h1 h2; simp at h1 h2 ⊢; omega

/-- Comparator for characters, by code point (Python compares strings by
code points). -/
def charOrd : DecLinOrd Char where
  le a b := decide (a.val.toNat ≤ b.val.toNat)
  total a b := by simpa using Nat.le_total a.val.toNat b.val.toNat
  antisymm := by
    intro a b h1 h2
    simp at h1 h2
    have hv : a.val.toNat = b.val.toNat := Nat.le_antisymm h1 h2
    exact Char.ext (UInt32.ext hv)
  le_trans := by intro a b c h1 h2; simp at h1 h2 ⊢; omega

/-- Lexicographic comparator on lists, as Python compares tuples. -/
def lexLe (le : α → α → Bool) : List α → List α → Bool
  | [], _ => true
  | _ :: _, [] => false
  | a :: as, b :: bs =>
    if le a b then (if le b a then lexLe le as bs else true) else false

/-- Lexicographic order on lists from an element order. -/
def listOrd (o : DecLinOrd α) : DecLinOrd (List α) where
  le := lexLe o.le
  total := by
    intro a b
    induction a generalizing b with
    | nil => left; rfl
    | cons x xs ih =>
      cases b with
      | nil => right; rfl
      | cons y ys =>
        by_cases hxy : o.le x y = true
        · by_cases hyx : o.le y x = true
          · rcases ih ys with h | h
            · left; simp [lexLe, hxy, hyx, h]
            · right; simp [lexLe, hxy, hyx, h]
          · left; simp [lexLe, hxy, hyx]
        · right
          rcases o.not_le (Bool.eq_false_iff.mpr hxy) with ⟨hyx, _⟩
          have hxy' : o.le x y = false := Bool.eq_false_iff.mpr hxy
          by_cases h2 : o.le x y = true
          · exact absurd h2 hxy
          · simp [lexLe, hyx, hxy']
  antisymm := by
    intro a b h1 h2
    induction a generalizing b with
    | nil => cases b with
      | nil => rfl
      | cons y ys => simp [lexLe] at h2
    | cons x xs ih =>
      cases b with
      | nil => simp [lexLe] at h1
      | cons y ys =>
        by_cases hxy : o.le x y = true
        · by_cases hyx : o.le y x = true
          · have hx : x = y := o.antisymm hxy hyx
            subst hx
            simp [lexLe, hxy, hyx] at h1 h2
            rw [ih h1 h2]
          · simp [lexLe, hxy, hyx] at h2
        · simp [lexLe, hxy] at h1
  le_trans := by
    intro a b c h1 h2
    induction a generalizing b c with
    | nil => rfl
    | cons x xs ih =>
      cases b with
      | nil => simp [lexLe] at h1
      | cons y ys =>
        cases c with
        | nil => simp [lexLe] at h2
        | cons z zs =>
          by_cases hxy : o.le x y = true
          · by_cases hyz : o.le y z = true
            · have hxz : o.le x z = true := o.le_trans hxy hyz
              by_cases hyx : o.le y x = true
              · -- x = y
                have hx : x = y := o.antisymm hxy hyx
                subst hx
                simp [lexLe, hxy, hyx] at h1
                by_cases hzx : o.le z x = true
                · have hx2 : x = z := o.antisymm hyz hzx
                  subst hx2
                  simp [lexLe, o.refl] at h2 ⊢
                  exact ih h1 h2
                · simp [lexLe, hxz, hzx]
              · -- x < y ≤ z hence x < z
                by_cases hzx : o.le z x = true
                · exact absurd (o.le_trans hyz hzx) hyx
                · simp [lexLe, hxz, hzx]
            · simp [lexLe, hyz] at h2
          · simp [lexLe, hxy] at h1

/-- Comparator for strings via their character lists. -/
def strOrd : DecLinOrd String where
  le a b := (listOrd charOrd).le a.data b.data
  total a b := (listOrd charOrd).total a.data b.data
  antisymm := by
    intro a b h1 h2
    exact String.ext ((listOrd charOrd).antisymm h1 h2)
  le_trans := fun h1 h2 => (listOrd charOrd).le_trans h1 h2

/-- Lexicographic comparator on pairs, as Python compares 2-tuples. -/
def prodOrd (o1 : DecLinOrd α) (o2 : DecLinOrd β) : DecLinOrd (α × β) where
  le p q := if o1.le p.1 q.1 then (if o1.le q.1 p.1 then o2.le p.2 q.2 else true) else false
  total := by
    intro p q
    by_cases h1 : o1.le p.1 q.1 = true
    · by_cases h2 : o1.le q.1 p.1 = true
      · rcases o2.total p.2 q.2 with h | h
        · left; simp [h1, h2, h]
        · right; simp [h1, h2, h]
      · left; simp [h1, h2]
    · rcases o1.not_le (Bool.eq_false_iff.mpr h1) with ⟨h2, _⟩
      right
      have h1' : o1.le p.1 q.1 = false := Bool.eq_false_iff.mpr h1
      simp [h1', h2]
  antisymm := by
    intro p q h1 h2
    by_cases ha : o1.le p.1 q.1 = true
    · by_cases hb : o1.le q.1 p.1 = true
      · have hfst : p.1 = q.1 := o1.antisymm ha hb
        simp [ha, hb] at h1 h2
        have hsnd : p.2 = q.2 := o2.antisymm h1 h2
        exact Prod.ext hfst hsnd
      · simp [ha, hb] at h2
    · simp [ha] at h1
  le_trans := by
    intro p q r h1 h2
    by_cases ha : o1.le p.1 q.1 = true
    · by_cases hb : o1.le q.1 r.1 = true
      · have hac : o1.le p.1 r.1 = true := o1.le_trans ha hb
        by_cases hba : o1.le q.1 p.1 = true
        · have h : p.1 = q.1 := o1.antisymm ha hba
          by_cases hcb : o1.le r.1 q.1 = true
          · simp [ha, hba] at h1
            simp [hb, hcb] at h2
            have hca : o1.le r.1 p.1 = true := by rw [h]; exact hcb
            simp [hac, hca]
            exact o2.le_trans h1 h2
          · have hca : o1.le r.1 p.1 = false := by
              by_cases hca : o1.le r.1 p.1 = true
              · exact absurd (h ▸ hca : o1.le r.1 q.1 = true) hcb
              · exact Bool.eq_false_iff.mpr hca
            simp [hac, hca]
        · have hca : o1.le r.1 p.1 = false := by
            by_cases hca : o1.le r.1 p.1 = true
            · exact absurd (o1.le_trans hb hca) hba
            · exact Bool.eq_false_iff.mpr hca
          simp [hac, hca]
      · simp [hb] at h2
    · simp [ha] at h1

end PyTriton

namespace PyTriton

/-- Insert an element into a list, before the first element it compares
`le` to.  Building block of the stable sort modelling Python's
`list.sort`. -/
def insertLe (le : α → α → Bool) (a : α) : List α → List α
  | [] => [a]
  | b :: l => if le a b then a :: b :: l else b :: insertLe le a l

/-- Stable insertion sort; extensionally equal to Python's stable
`list.sort` for a total preorder comparison. -/
def insertionSort (le : α → α → Bool) : List α → List α
  | [] => []
  | a :: l => insertLe le a (insertionSort le l)

/-- Sort a list by a key function under a packaged linear order, as
Python's `list.sort(key=...)` does. -/
def sortByKey (ord : DecLinOrd K) (keyOf : α → K) (l : List α) : List α :=
  insertionSort (fun x y => ord.le (keyOf x) (keyOf y)) l

theorem perm_insertLe (le : α → α → Bool) (a : α) (l : List α) :
    (insertLe le a l).Perm (a :: l) := by
  induction l with
  | nil => exact List.Perm.refl _
  | cons b l ih =>
    by_cases h : le a b = true
    · simp [insertLe, h]
    · simp only [insertLe, h, if_neg]
      exact (ih.cons b).trans (List.Perm.swap a b l)

theorem sortByKey_perm (ord : DecLinOrd K) (keyOf : α → K) (l : List α) :
    (sortByKey ord keyOf l).Perm l := by
  induction l with
  | nil => exact List.Perm.refl _
  | cons a l ih => exact (perm_insertLe _ a _).trans (ih.cons a)

theorem mem_insertLe {le : α → α → Bool} {a x : α} {l : List α} :
    x ∈ insertLe le a l ↔ x = a ∨ x ∈ l := by
  induction l with
  | nil => simp [insertLe]
  | cons b l ih =>
    by_cases h : le a b = true
    · simp [insertLe, h]
    · simp [insertLe, h, ih]; tauto

theorem pairwise_insertLe (ord : DecLinOrd K) (keyOf : α → K) (a : α) (l : List α)
    (hl : l.Pairwise (fun x y => ord.le (keyOf x) (keyOf y) = true)) :
    (insertLe (fun x y => ord.le (keyOf x) (keyOf y)) a l).Pairwise
      (fun x y => ord.le (keyOf x) (keyOf y) = true) := by
  induction l with
  | nil => simp [insertLe]
  | cons b l ih =>
    rcases List.pairwise_cons.mp hl with ⟨hb, hl'⟩
    by_cases h : ord.le (keyOf a) (keyOf b) = true
    · simp only [insertLe, h, if_pos]
      refine List.pairwise_cons.mpr ⟨?_, hl⟩
      intro y hy
      rcases List.mem_cons.mp hy with rfl | hy'
      · exact h
      · exact ord.le_trans h (hb y hy')
    · simp only [insertLe, h, if_neg]
      refine List.pairwise_cons.mpr ⟨?_, ih hl'⟩
      intro y hy
      rcases mem_insertLe.mp hy with rfl | hy'
      · exact (ord.not_le (Bool.eq_false_iff.mpr h)).1
      · exact hb y hy'

theorem sortByKey_sorted (ord : DecLinOrd K) (keyOf : α → K) (l : List α) :
    (sortByKey ord keyOf l).Pairwise (fun x y => ord.le (keyOf x) (keyOf y) = true) := by
  induction l with
  | nil => exact List.Pairwise.nil
  | cons a l ih => exact pairwise_insertLe ord keyOf a _ ih

theorem filter_insertLe [DecidableEq K] (ord : DecLinOrd K) (keyOf : α → K)
    (a : α) (l : List α) (k : K) :
    (insertLe (fun x y => ord.le (keyOf x) (keyOf y)) a l).filter
        (fun x => decide (keyOf x = k)) =
      if keyOf a = k then a :: l.filter (fun x => decide (keyOf x = k))
      else l.filter (fun x => decide (keyOf x = k)) := by
  induction l with
  | nil => by_cases h : keyOf a = k <;> simp [insertLe, h]
  | cons b l ih =>
    by_cases h : ord.le (keyOf a) (keyOf b) = true
    · have hins : insertLe (fun x y => ord.le (keyOf x) (keyOf y)) a (b :: l)
          = a :: b :: l := by simp [insertLe, h]
      rw [hins]
      by_cases hak : keyOf a = k
      · by_cases hbk : keyOf b = k <;> simp [hak, hbk]
      · by_cases hbk : keyOf b = k <;> simp [hak, hbk]
    · -- a is inserted past b; then keyOf b < keyOf a, so keyOf b ≠ keyOf a
      have hins : insertLe (fun x y => ord.le (keyOf x) (keyOf y)) a (b :: l)
          = b :: insertLe (fun x y => ord.le (keyOf x) (keyOf y)) a l := by
        simp [insertLe, h]
      rw [hins]
      have hba := ord.not_le (Bool.eq_false_iff.mpr h)
      by_cases hak : keyOf a = k
      · have hbk : keyOf b ≠ k := fun hbk => hba.2 (hbk.trans hak.symm).symm
        simp [hak, hbk] at ih ⊢
        exact ih
      · by_cases hbk : keyOf b = k <;> simp [hak, hbk] at ih ⊢ <;> exact ih

theorem sortByKey_filter [DecidableEq K] (ord : DecLinOrd K) (keyOf : α → K)
    (l : List α) (k : K) :
    (sortByKey ord keyOf l).filter (fun x => decide (keyOf x = k)) =
      l.filter (fun x => decide (keyOf x = k)) := by
  induction l with
  | nil => rfl
  | cons a l ih =>
    show (insertLe _ a (sortByKey ord keyOf l)).filter _ = _
    rw [filter_insertLe ord keyOf a _ k]
    by_cases hak : keyOf a = k <;> simp [hak, ih]

end PyTriton

namespace PyTriton

/-- Split a list into maximal runs of adjacent elements sharing a key, as
`itertools.groupby(..., key=...)` does after sorting. -/
def groupRuns [DecidableEq K] (kp : α → K) : List α → List (List α)
  | [] => []
  | a :: rest =>
    (a :: rest.takeWhile (fun x => decide (kp x = kp a))) ::
      groupRuns kp (rest.dropWhile (fun x => decide (kp x = kp a)))
termination_by l => l.length
decreasing_by
  simp only [List.length_cons]
  exact Nat.lt_succ_of_le ((List.dropWhile_sublist _).length_le)

theorem groupRuns_flatten [DecidableEq K] (kp : α → K) (l : List α) :
    (groupRuns kp l).flatten = l := by
  suffices h : ∀ (n : Nat) (l : List α), l.length ≤ n → (groupRuns kp l).flatten = l by
    exact h l.length l le_rfl
  intro n
  induction n with
  | zero =>
    intro l hl
    match l, hl with
    | [], _ => simp [groupRuns]
  | succ n ih =>
    intro l hl
    match l with
    | [] => simp [groupRuns]
    | a :: rest =>
      rw [groupRuns]
      simp only [List.flatten_cons, List.cons_append]
      have hlen : (rest.dropWhile (fun x => decide (kp x = kp a))).length ≤ n := by
        have h1 := (@List.dropWhile_sublist _ rest (fun x => decide (kp x = kp a))).length_le
        simp only [List.length_cons] at hl
        omega
      rw [ih _ hlen, List.takeWhile_append_dropWhile]

theorem groupRuns_const [DecidableEq K] (kp : α → K) (l : List α) :
    ∀ g ∈ groupRuns kp l, ∀ x ∈ g, ∀ y ∈ g, kp x = kp y := by
  suffices h : ∀ (n : Nat) (l : List α), l.length ≤ n →
      ∀ g ∈ groupRuns kp l, ∀ x ∈ g, ∀ y ∈ g, kp x = kp y by
    exact h l.length l le_rfl
  intro n
  induction n with
  | zero =>
    intro l hl
    match l, hl with
    | [], _ => simp [groupRuns]
  | succ n ih =>
    intro l hl
    match l with
    | [] => simp [groupRuns]
    | a :: rest =>
      rw [groupRuns]
      intro g hg
      rcases List.mem_cons.mp hg with rfl | hg'
      · have hkey : ∀ x ∈ a :: rest.takeWhile (fun x => decide (kp x = kp a)),
            kp x = kp a := by
          intro x hx
          rcases List.mem_cons.mp hx with rfl | hx'
          · rfl
          · have hd := List.mem_takeWhile_imp hx'
            exact of_decide_eq_true hd
        intro x hx y hy
        rw [hkey x hx, hkey y hy]
      · have hlen : (rest.dropWhile (fun x => decide (kp x = kp a))).length ≤ n := by
          have h1 := (@List.dropWhile_sublist _ rest (fun x => decide (kp x = kp a))).length_le
          simp only [List.length_cons] at hl
          omega
        exact ih _ hlen g hg'

theorem filter_eq_takeWhile_of_sorted [DecidableEq K] (ord : DecLinOrd K) (kp : α → K)
    (k : K) :
    ∀ l : List α, l.Pairwise (fun x y => ord.le (kp x) (kp y) = true) →
      (∀ x ∈ l, ord.le k (kp x) = true) →
      l.filter (fun x => decide (kp x = k)) = l.takeWhile (fun x => decide (kp x = k)) := by
  intro l
  induction l with
  | nil => intro _ _; rfl
  | cons c l2 ih =>
    intro hs hlb
    rcases List.pairwise_cons.mp hs with ⟨hc, hs'⟩
    rw [List.filter_cons, List.takeWhile_cons]
    by_cases hck : kp c = k
    · rw [if_pos (decide_eq_true hck), if_pos (decide_eq_true hck)]
      rw [ih hs' (fun x hx => hlb x (List.mem_cons_of_mem c hx))]
    · have hd : ¬(decide (kp c = k) = true) := by simp [hck]
      rw [if_neg hd, if_neg hd]
      rw [List.filter_eq_nil_iff]
      intro x hx hxk
      have hxk' : kp x = k := of_decide_eq_true hxk
      have h1 : ord.le (kp c) k = true := hxk' ▸ hc x hx
      exact hck (ord.antisymm h1 (hlb c (List.mem_cons_self c l2)))

theorem groupRuns_filter_mem [DecidableEq K] (ord : DecLinOrd K) (kp : α → K) :
    ∀ l : List α, l.Pairwise (fun x y => ord.le (kp x) (kp y) = true) →
      ∀ a ∈ l, l.filter (fun x => decide (kp x = kp a)) ∈ groupRuns kp l := by
  suffices h : ∀ (n : Nat) (l : List α), l.length ≤ n →
      l.Pairwise (fun x y => ord.le (kp x) (kp y) = true) →
      ∀ a ∈ l, l.filter (fun x => decide (kp x = kp a)) ∈ groupRuns kp l by
    exact fun l => h l.length l le_rfl
  intro n
  induction n with
  | zero =>
    intro l hl
    match l, hl with
    | [], _ => intro _ a ha; cases ha
  | succ n ih =>
    intro l hl
    match l with
    | [] => intro _ a ha; cases ha
    | b :: rest =>
      intro hs a ha
      rcases List.pairwise_cons.mp hs with ⟨hb, hs'⟩
      rw [groupRuns]
      by_cases hab : kp a = kp b
      · rw [hab]
        have hfl : (b :: rest).filter (fun x => decide (kp x = kp b)) =
            b :: rest.takeWhile (fun x => decide (kp x = kp b)) := by
          rw [List.filter_cons, if_pos (decide_eq_true rfl)]
          congr 1
          exact filter_eq_takeWhile_of_sorted ord kp (kp b) rest hs' hb
        rw [hfl]
        exact List.mem_cons_self _ _
      · have ha' : a ∈ rest := by
          rcases List.mem_cons.mp ha with rfl | h
          · exact absurd rfl hab
          · exact h
        right
        set p := fun x => decide (kp x = kp b) with hp
        have hsplit : rest = rest.takeWhile p ++ rest.dropWhile p :=
          (List.takeWhile_append_dropWhile p rest).symm
        have hdw_pw : (rest.dropWhile p).Pairwise
            (fun x y => ord.le (kp x) (kp y) = true) := by
          have hthis := hs'
          rw [hsplit] at hthis
          exact (List.pairwise_append.mp hthis).2.1
        have ha_dw : a ∈ rest.dropWhile p := by
          have hmem : a ∈ rest.takeWhile p ++ rest.dropWhile p := hsplit ▸ ha'
          rcases List.mem_append.mp hmem with h | h
          · have hd := List.mem_takeWhile_imp h
            exact absurd (of_decide_eq_true hd) hab
          · exact h
        have hlen : (rest.dropWhile p).length ≤ n := by
          have h1 := (@List.dropWhile_sublist _ rest p).length_le
          simp only [List.length_cons] at hl
          omega
        have hfl : (b :: rest).filter (fun x => decide (kp x = kp a)) =
            (rest.dropWhile p).filter (fun x => decide (kp x = kp a)) := by
          rw [List.filter_cons]
          rw [if_neg (by simp; exact fun h => hab h.symm)]
          conv_lhs => rw [hsplit]
          rw [List.filter_append]
          have htw : (rest.takeWhile p).filter (fun x => decide (kp x = kp a)) = [] := by
            rw [List.filter_eq_nil_iff]
            intro x hx hxk
            have hd := List.mem_takeWhile_imp hx
            exact hab ((of_decide_eq_true hxk) ▸ of_decide_eq_true hd)
          rw [htw, List.nil_append]
        rw [hfl]
        exact ih _ hlen hdw_pw a ha_dw

/-- Tag list elements with consecutive indices starting at `s`, as
Python's `enumerate` does. -/
def tagFrom (s : Nat) : List α → List (Nat × α)
  | [] => []
  | a :: l => (s, a) :: tagFrom (s + 1) l

theorem tagFrom_length (s : Nat) (l : List α) : (tagFrom s l).length = l.length := by
  induction l generalizing s with
  | nil => rfl
  | cons a l ih => simp [tagFrom, ih]

theorem tagFrom_map_fst (s : Nat) (l : List α) :
    (tagFrom s l).map Prod.fst = List.range' s l.length := by
  induction l generalizing s with
  | nil => rfl
  | cons a l ih => simp [tagFrom, List.range'_succ, ih]

theorem tagFrom_map_snd (s : Nat) (l : List α) :
    (tagFrom s l).map Prod.snd = l := by
  induction l generalizing s with
  | nil => rfl
  | cons a l ih => simp [tagFrom, ih]

theorem tagFrom_mem {l : List α} {i : Nat} {a : α} (s : Nat)
    (h : l[i]? = some a) : (s + i, a) ∈ tagFrom s l := by
  induction l generalizing s i with
  | nil => simp at h
  | cons b l ih =>
    cases i with
    | zero =>
      simp only [List.getElem?_cons_zero, Option.some.injEq] at h
      subst h
      exact List.mem_cons_self _ _
    | succ i =>
      simp only [List.getElem?_cons_succ] at h
      have hrec := ih (s + 1) h
      have harith : s + 1 + i = s + (i + 1) := by omega
      rw [harith] at hrec
      exact List.mem_cons_of_mem _ hrec

theorem tagFrom_filter_map_snd (s : Nat) (l : List α) (q : α → Bool) :
    ((tagFrom s l).filter (fun p => q p.2)).map Prod.snd = l.filter q := by
  induction l generalizing s with
  | nil => rfl
  | cons a l ih =>
    by_cases h : q a = true
    · simp [tagFrom, List.filter_cons, h, ih]
    · simp only [Bool.not_eq_true] at h
      simp [tagFrom, List.filter_cons, h, ih]

theorem tagFrom_filter_getElem {l : List α} {i : Nat} {a : α} (q : α → Bool) (s : Nat)
    (h : l[i]? = some a) (hq : q a = true) :
    ((tagFrom s l).filter (fun p => q p.2))[((l.take i).filter q).length]? =
      some (s + i, a) := by
  induction l generalizing s i with
  | nil => simp at h
  | cons b l ih =>
    cases i with
    | zero =>
      simp only [List.getElem?_cons_zero, Option.some.injEq] at h
      subst h
      simp [tagFrom, List.filter_cons, hq]
    | succ i =>
      simp only [List.getElem?_cons_succ] at h
      have hrec := ih (s + 1) h
      have harith : s + 1 + i = s + (i + 1) := by omega
      rw [harith] at hrec
      show (((s, b) :: tagFrom (s + 1) l).filter (fun p => q p.2))[
          (((b :: l).take (i + 1)).filter q).length]? = _
      rw [List.take_succ_cons]
      by_cases hb : q b = true
      · rw [List.filter_cons, List.filter_cons, if_pos hb, if_pos hb]
        rw [List.length_cons, List.getElem?_cons_succ]
        exact hrec
      · have hb0 : ¬(q b = true) := hb
        rw [List.filter_cons, List.filter_cons, if_neg hb0, if_neg hb0]
        exact hrec

end PyTriton

namespace PyTriton

/-- The elements of `l` whose key equals `k`, in original order (the
group a given request is dispatched with). -/
def grpOf [DecidableEq K] (keyOf : α → K) (k : K) (l : List α) : List α :=
  l.filter (fun r => decide (keyOf r = k))

/-- The position of the element at index `i` inside its group: the number
of earlier elements sharing key `k`. -/
def rankOf [DecidableEq K] (keyOf : α → K) (k : K) (l : List α) (i : Nat) : Nat :=
  (grpOf keyOf k (l.take i)).length

/-- The per-call groups built by the grouping decorators: tag requests
with indices (`enumerate`), stable-sort by key (`list.sort`), split into
runs of equal key (`itertools.groupby`). -/
def callGroups [DecidableEq K] (ord : DecLinOrd K) (keyOf : α → K)
    (inputs : List α) : List (List (Nat × α)) :=
  groupRuns (fun p => keyOf p.2)
    (sortByKey ord (fun p : Nat × α => keyOf p.2) (tagFrom 0 inputs))

/-- Common body of `group_by_keys` and `group_by_values`: call the
wrapped stage once per group, pair each result with its request's
original index, sort by index and return the results. -/
def runGrouped [DecidableEq K] (ord : DecLinOrd K) (keyOf : α → K)
    (f : List α → List β) (inputs : List α) : List β :=
  let pairs := ((callGroups ord keyOf inputs).map
    (fun g => (g.map Prod.fst).zip (f (g.map Prod.snd)))).flatten
  (sortByKey natOrd (fun p : Nat × β => p.1) pairs).map Prod.snd

theorem natOrd_le_iff (a b : Nat) : natOrd.le a b = true ↔ a ≤ b := by
  simp [natOrd]

theorem getElem?_zip_eq {l1 : List γ} {l2 : List δ} {i : Nat} {x : γ} {y : δ}
    (h1 : l1[i]? = some x) (h2 : l2[i]? = some y) :
    (l1.zip l2)[i]? = some (x, y) := by
  induction l1 generalizing l2 i with
  | nil => simp at h1
  | cons a l1 ih =>
    cases l2 with
    | nil => simp at h2
    | cons b l2 =>
      cases i with
      | zero =>
        simp only [List.getElem?_cons_zero, Option.some.injEq] at h1 h2
        simp [List.zip_cons_cons, h1, h2]
      | succ i =>
        simp only [List.getElem?_cons_succ] at h1 h2
        simp only [List.zip_cons_cons, List.getElem?_cons_succ]
        exact ih h1 h2

theorem runGrouped_spec [DecidableEq K] (ord : DecLinOrd K) (keyOf : α → K)
    (f : List α → List β) (hf : ∀ l, (f l).length = l.length) (inputs : List α) :
    (runGrouped ord keyOf f inputs).length = inputs.length ∧
    ∀ i a, inputs[i]? = some a →
      (runGrouped ord keyOf f inputs)[i]? =
        (f (grpOf keyOf (keyOf a) inputs))[rankOf keyOf (keyOf a) inputs i]? := by
  set n := inputs.length with hn
  set kp : Nat × α → K := fun p => keyOf p.2 with hkp
  set t := tagFrom 0 inputs with ht
  set srt := sortByKey ord kp t with hsrt
  set groups := groupRuns kp srt with hgroups
  set zipfun : List (Nat × α) → List (Nat × β) :=
    fun g => (g.map Prod.fst).zip (f (g.map Prod.snd)) with hzipfun
  set pairs := (groups.map zipfun).flatten with hpairs
  set final := sortByKey natOrd (fun p : Nat × β => p.1) pairs with hfinal
  have hrun : runGrouped ord keyOf f inputs = final.map Prod.snd := rfl
  -- lengths of the zipped blocks
  have hziplen : ∀ g : List (Nat × α), (zipfun g).length = g.length := by
    intro g
    rw [hzipfun]
    simp only [List.length_zip, List.length_map, hf]
    omega
  have hzipfst : ∀ g : List (Nat × α), (zipfun g).map Prod.fst = g.map Prod.fst := by
    intro g
    rw [hzipfun]
    apply List.map_fst_zip
    rw [hf, List.length_map, List.length_map]
  -- the first components of `pairs` are exactly those of the sorted tags
  have hpairs_fst : pairs.map Prod.fst = srt.map Prod.fst := by
    rw [hpairs, List.map_flatten, List.map_map]
    have hfun : (List.map Prod.fst ∘ zipfun) = fun g : List (Nat × α) => g.map Prod.fst :=
      funext hzipfst
    rw [hfun, ← List.map_flatten, hgroups, groupRuns_flatten]
  have hsrt_perm : srt.Perm t := sortByKey_perm ord kp t
  have hsrt_sorted : srt.Pairwise (fun x y => ord.le (kp x) (kp y) = true) :=
    sortByKey_sorted ord kp t
  have ht_fst : t.map Prod.fst = List.range' 0 n := tagFrom_map_fst 0 inputs
  have hpairs_fst_perm : (pairs.map Prod.fst).Perm (List.range' 0 n) := by
    rw [hpairs_fst, ← ht_fst]
    exact hsrt_perm.map Prod.fst
  have hfinal_perm : final.Perm pairs := sortByKey_perm natOrd _ pairs
  have hfinal_sorted : final.Pairwise (fun x y => natOrd.le x.1 y.1 = true) :=
    sortByKey_sorted natOrd _ pairs
  -- the sorted first components are exactly 0, 1, ..., n-1
  have hfinal_fst : final.map Prod.fst = List.range' 0 n := by
    apply @List.eq_of_perm_of_sorted Nat (· ≤ ·) _ _ _
    · exact ((hfinal_perm.map Prod.fst).trans hpairs_fst_perm)
    · exact List.pairwise_map.mpr
        (hfinal_sorted.imp (fun h => (natOrd_le_iff _ _).mp h))
    · exact (List.pairwise_lt_range' 0 n).imp le_of_lt
  have hfinal_len : final.length = n := by
    have h1 : (final.map Prod.fst).length = (List.range' 0 n).length := by
      rw [hfinal_fst]
    simpa using h1
  have hfinal_fst_at : ∀ j (hj : j < final.length), (final[j]).1 = j := by
    intro j hj
    have hj3 : j < (List.range' 0 n).length := by
      simp only [List.length_range']
      omega
    have h1 : (final.map Prod.fst)[j]? = some j := by
      rw [hfinal_fst, List.getElem?_eq_getElem hj3, List.getElem_range']
      simp
    have h2 : (final.map Prod.fst)[j]? = some (final[j]).1 := by
      rw [List.getElem?_map, List.getElem?_eq_getElem hj]
      rfl
    rw [h2] at h1
    exact Option.some_inj.mp h1
  constructor
  · rw [hrun]
    simpa using hfinal_len
  · intro i a hia
    set k := keyOf a with hk
    set q : α → Bool := fun r => decide (keyOf r = k) with hq
    -- the group containing request i, as a run of the sorted tagged list
    have hmem_t : (i, a) ∈ t := by
      have h0 := tagFrom_mem 0 hia
      simpa using h0
    have hmem_srt : (i, a) ∈ srt := hsrt_perm.mem_iff.mpr hmem_t
    have hgmem : srt.filter (fun x => decide (kp x = kp (i, a))) ∈ groupRuns kp srt :=
      groupRuns_filter_mem ord kp srt hsrt_sorted (i, a) hmem_srt
    have hkpa : kp (i, a) = k := rfl
    set g := srt.filter (fun x => decide (kp x = k)) with hg
    have hgmem' : g ∈ groups := by
      rw [hgroups, hg, ← hkpa]
      exact hgmem
    -- stability: the run equals the filtered tagged list
    have hstab : g = t.filter (fun p => decide (kp p = k)) := by
      rw [hg, hsrt]
      exact sortByKey_filter ord kp t k
    have hgsnd : g.map Prod.snd = grpOf keyOf k inputs := by
      rw [hstab, ht]
      exact tagFrom_filter_map_snd 0 inputs q
    -- position of (i, a) inside the run
    set rk := rankOf keyOf k inputs i with hrk
    have hgat : g[rk]? = some (i, a) := by
      rw [hstab, ht, hrk]
      have h0 := tagFrom_filter_getElem q 0 hia (decide_eq_true hk.symm)
      simpa using h0
    obtain ⟨hrklt, hgrk⟩ := List.getElem?_eq_some_iff.mp hgat
    -- the value paired with index i
    have hflen : (f (grpOf keyOf k inputs)).length = g.length := by
      rw [hf, ← hgsnd, List.length_map]
    have hrklt' : rk < (f (grpOf keyOf k inputs)).length := by omega
    set v := (f (grpOf keyOf k inputs)).get ⟨rk, hrklt'⟩ with hv
    -- (i, v) is an element of the zipped block for g
    have hfst_at : (g.map Prod.fst)[rk]? = some i := by
      rw [List.getElem?_map, hgat]
      rfl
    have hsnd_at : (f (g.map Prod.snd))[rk]? = some v := by
      rw [hgsnd, List.getElem?_eq_getElem hrklt', hv, List.get_eq_getElem]
    have hzg_at : (zipfun g)[rk]? = some (i, v) :=
      getElem?_zip_eq hfst_at hsnd_at
    have hin_pairs : (i, v) ∈ pairs := by
      rw [hpairs]
      refine List.mem_flatten.mpr ⟨zipfun g, List.mem_map_of_mem zipfun hgmem', ?_⟩
      obtain ⟨hlt, heq⟩ := List.getElem?_eq_some_iff.mp hzg_at
      rw [← heq]
      exact List.getElem_mem hlt
    -- hence `final` has (i, v) at position i
    have hin_final : (i, v) ∈ final := hfinal_perm.mem_iff.mpr hin_pairs
    obtain ⟨j, hj, hje⟩ := List.getElem_of_mem hin_final
    have hji : j = i := by
      have h1 := hfinal_fst_at j hj
      rw [hje] at h1
      exact h1.symm
    subst hji
    have hfin_at : final[j]? = some (j, v) := by
      rw [List.getElem?_eq_getElem hj, hje]
    rw [hrun]
    rw [List.getElem?_map, hfin_at]
    rw [List.getElem?_eq_getElem hrklt', hv, List.get_eq_getElem]
    rfl

end PyTriton

namespace PyTriton

/-- A dense numpy array with a leading batch axis: the shape of one row
(the trailing dimensions) and the list of rows, each row stored flattened
in row-major order. -/
structure Tensor where
  rowShape : List Nat
  rows : List (List Int)
  deriving DecidableEq, Inhabited

/-- Full numpy shape: batch-axis length followed by the row shape. -/
def Tensor.fullShape (t : Tensor) : List Nat := t.rows.length :: t.rowShape

/-- `arr.flatten()`: row-major concatenation of the rows. -/
def Tensor.flatten (t : Tensor) : List Int := t.rows.flatten

/-- A request: a Python dict from input names to tensors, modelled as an
insertion-ordered association list with distinct keys. -/
abbrev Request := List (String × Tensor)

/-- `next(iter(request.values())).shape[0]`: the axis-0 length of the
request's first input. -/
def batchSizeOf (r : Request) : Nat := (r.headD ("", default)).2.rows.length

/-- A value returned by a wrapped inference callable: a dict of named
tensors, a list/tuple of tensors, or anything else. -/
inductive PyOutput where
  | dict (m : List (String × Tensor))
  | seq (l : List Tensor)
  | other
  deriving DecidableEq

/-- `convert_output` (decorators.py:58): a dict passes through; a
list/tuple is zipped against the config's output names when the lengths
match; anything else is a validation error. -/
def convert_output (outputs : PyOutput) (configOutputs : List String) :
    Except String (List (String × Tensor)) :=
  match outputs with
  | .dict m => .ok m
  | .seq l =>
    if l.length ≠ configOutputs.length then
      .error "Outputs length different than config outputs length"
    else
      .ok (configOutputs.zip l)
  | .other => .error "Unsupported output type"

/-- Python dict-view key equality (`d.keys() == d2.keys()`):
order-independent set equality. -/
def keysEqSet (a b : List String) : Bool :=
  a.all (fun s => b.contains s) && b.all (fun s => a.contains s)

/-- The key list of a request, in insertion order. -/
def keySet (r : Request) : List String := r.map Prod.fst

/-- `np.concatenate(ts)`: concatenation along axis 0. -/
def concatTensors (ts : List Tensor) : Tensor :=
  { rowShape := (ts.headD default).rowShape
    rows := (ts.map Tensor.rows).flatten }

/-- `request[name]` for a name known to be present. -/
def getTensor (r : Request) (nm : String) : Tensor := (r.lookup nm).getD default

/-- The merged input mapping of the batch decorator: for each input name
of the first request, the axis-0 concatenation of every request's tensor
for that name, in request-list order. -/
def mergeInputs (reqs : List Request) (names : List String) : List (String × Tensor) :=
  names.map (fun nm => (nm, concatTensors (reqs.map (fun r => getTensor r nm))))

/-- `outputs[name][start : start + len, ...]`: numpy slicing along
axis 0 (clipping at the end, as numpy slices do). -/
def sliceTensor (t : Tensor) (start len : Nat) : Tensor :=
  { rowShape := t.rowShape, rows := (t.rows.drop start).take len }

/-- The splitting loop of the batch decorator: walk the request list with
a running start offset and slice every output at [start, start + bs). -/
def splitOutputsFrom (outputs : List (String × Tensor)) : Nat → List Request →
    List (List (String × Tensor))
  | _, [] => []
  | start, r :: rs =>
    (outputs.map (fun p => (p.1, sliceTensor p.2 start (batchSizeOf r)))) ::
      splitOutputsFrom outputs (start + batchSizeOf r) rs

/-- The `batch` decorator (decorators.py:93): every request must share
the first request's key set, else a validation error; otherwise merge the
inputs, invoke the wrapped function once, normalize its output and split
it back per request by each request's own batch size. -/
def batch (f : List (String × Tensor) → PyOutput) (configOutputs : List String)
    (reqs : List Request) : Except String (List (List (String × Tensor))) :=
  let names := keySet (reqs.headD [])
  if (reqs.drop 1).all (fun r => keysEqSet names (keySet r)) then
    match convert_output (f (mergeInputs reqs names)) configOutputs with
    | .ok outputs => .ok (splitOutputsFrom outputs 0 reqs)
    | .error e => .error e
  else .error "Cannot batch requests with different set of inputs keys"

/-- `tuple(sorted(input.keys()))`: the sorted key tuple used by
`group_by_keys`. -/
def sortedKeys (r : Request) : List String :=
  sortByKey strOrd id (keySet r)

/-- The `group_by_keys` decorator (decorators.py:180). -/
def group_by_keys (f : List Request → List β) (inputs : List Request) : List β :=
  runGrouped (listOrd strOrd) sortedKeys f inputs

/-- `np.unique(arr, axis=0)` on the rows: the deduplicated rows in a
canonical (sorted) order. -/
def uniqueRows (rows : List (List Int)) : List (List Int) :=
  (sortByKey (listOrd intOrd) id rows).dedup

/-- The per-key group component of `group_by_values`: for a present key
the pair (shape of the deduplicated value array, its flattened contents);
for an absent key the fixed sentinel ((-1,), (-1,)). -/
def valueComponent (k : String) (r : Request) : List Int × List Int :=
  match r.lookup k with
  | some t =>
      (((uniqueRows t.rows).length : Int) :: t.rowShape.map Int.ofNat,
        (uniqueRows t.rows).flatten)
  | none => ([-1], [-1])

/-- The composite group key of `group_by_values`: the tuple of per-key
components over the requested keys. -/
def groupValKey (ks : List String) (r : Request) : List (List Int × List Int) :=
  ks.map (fun k => valueComponent k r)

/-- The order used to sort composite group keys (Python's nested tuple
comparison). -/
def valKeyOrd : DecLinOrd (List (List Int × List Int)) :=
  listOrd (prodOrd (listOrd intOrd) (listOrd intOrd))

/-- The `group_by_values(*keys)` decorator (decorators.py:138). -/
def group_by_values (ks : List String) (f : List Request → List β)
    (inputs : List Request) : List β :=
  runGrouped valKeyOrd (groupValKey ks) f inputs

/-- `np.tile(val, [b, 1, ..., 1])`: replicate `val` along a new leading
axis of length `b`. -/
def tileNewAxis (val : Tensor) (b : Nat) : Tensor :=
  { rowShape := val.fullShape, rows := List.replicate b val.flatten }

/-- Fill one request (decorators.py:215-223): take the batch size from
the first input's axis-0 length, then insert every missing default key
(in default-table order) with the tiled default value; `none` when the
request is empty (`next(iter(...))` raises `StopIteration`). -/
def fillRequest (defaults : List (String × Tensor)) (r : Request) : Option Request :=
  match r with
  | [] => none
  | (_, t0) :: _ =>
    some (r ++ ((defaults.filter (fun d => (r.lookup d.1).isNone)).map
      (fun d => (d.1, tileNewAxis d.2 t0.rows.length))))

/-- Monadic map over `Option`, short-circuiting at the first failure. -/
def optMapM (f : α → Option β) : List α → Option (List β)
  | [] => some []
  | a :: l =>
    match f a, optMapM f l with
    | some b, some bl => some (b :: bl)
    | _, _ => none

/-- The `fill_optionals(**defaults)` decorator (decorators.py:203):
augment every request in place, then call the wrapped stage on the full
list. -/
def fill_optionals (defaults : List (String × Tensor)) (f : List Request → β)
    (reqs : List Request) : Option β :=
  (optMapM (fillRequest defaults) reqs).map f

/-- `bisect.bisect_left` on an ascending list: the number of elements
strictly below `x`, i.e. the index of the first element ≥ `x`. -/
def bisect_left (l : List Nat) (x : Nat) : Nat :=
  (l.takeWhile (fun v => decide (v < x))).length

/-- The batch-size policy of `pad_batch`: the sorted preferred batch
sizes (when configured) with the maximum batch size appended. -/
def padPolicy (preferred : Option (List Nat)) (maxBatch : Nat) : List Nat :=
  (match preferred with
   | none => []
   | some p => sortByKey natOrd id p) ++ [maxBatch]

/-- `np.repeat(arr, [1, ..., 1, target - n + 1], axis=0)`: every row but
the last kept once, the last row repeated `target + 1 - n` times. -/
def padTensor (t : Tensor) (target : Nat) : Tensor :=
  { rowShape := t.rowShape
    rows := t.rows.dropLast ++
      (match t.rows.getLast? with
       | none => []
       | some lastRow => List.replicate (target + 1 - t.rows.length) lastRow) }

/-- The padded inputs built by `pad_batch` (decorators.py:240): the
target size is the policy entry at the bisection point of the first
input's axis-0 length; every input is padded to it. -/
def padInputs (preferred : Option (List Nat)) (maxBatch : Nat)
    (inputs : List (String × Tensor)) : List (String × Tensor) :=
  let sizes := padPolicy preferred maxBatch
  let cur := (inputs.headD ("", default)).2.rows.length
  let target := sizes.getD (bisect_left sizes cur) 0
  inputs.map (fun p => (p.1, padTensor p.2 target))

/-- The `pad_batch` decorator: pad the keyword inputs, then invoke the
wrapped function on them. -/
def pad_batch (preferred : Option (List Nat)) (maxBatch : Nat)
    (f : List (String × Tensor) → β) (inputs : List (String × Tensor)) : β :=
  f (padInputs preferred maxBatch inputs)

/-- A keyword-argument value after `first_value`: still an array (shape
and flattened data) or a bare Python scalar. -/
inductive PyVal where
  | arr (shape : List Nat) (data : List Int)
  | scalar (x : Int)
  deriving DecidableEq

/-- A full tensor viewed as a generic array value. -/
def Tensor.toVal (t : Tensor) : PyVal := .arr t.fullShape t.flatten

/-- Python's `max` over a sequence: `None` (an error) on an empty
sequence, the greatest element otherwise. -/
def pyMax : List Nat → Option Nat
  | [] => none
  | a :: l =>
    some (match pyMax l with
          | none => a
          | some m => max a m)

/-- `res = inputs[key][0]; if max(res.shape) == 1: res = res.flatten().item()`
(decorators.py:287-289).  Fallible: indexing an empty axis, `max()` of an
empty shape tuple (1-D input), `item()` on a row without exactly one
element. -/
def firstRowVal (t : Tensor) : Except String PyVal :=
  match t.rows.head? with
  | none => .error "IndexError: index 0 is out of bounds"
  | some row =>
    match pyMax t.rowShape with
    | none => .error "ValueError: max() arg is an empty sequence"
    | some m =>
      if m = 1 then
        match row with
        | [x] => .ok (.scalar x)
        | _ => .error "ValueError: can only convert an array of size 1 to a Python scalar"
      else .ok (.arr t.rowShape row)

/-- Monadic map over `Except`, short-circuiting at the first failure. -/
def exMapM (f : α → Except String β) : List α → Except String (List β)
  | [] => .ok []
  | a :: l =>
    match f a with
    | .ok b =>
      match exMapM f l with
      | .ok bl => .ok (b :: bl)
      | .error e => .error e
    | .error e => .error e

/-- The `first_value(*keys)` decorator (decorators.py:273): for each
selected key replace its tensor by the first row of its batch, collapsed
to a scalar when it is a one-element row; non-selected keyword arguments
are unchanged.  A selected key absent from the arguments is a KeyError. -/
def first_value (ks : List String) (kwargs : List (String × Tensor)) :
    Except String (List (String × PyVal)) :=
  if ks.all (fun k => (kwargs.lookup k).isSome) then
    exMapM (fun p =>
      if ks.contains p.1 then (firstRowVal p.2).map (fun v => (p.1, v))
      else .ok (p.1, p.2.toVal)) kwargs
  else .error "KeyError"

end PyTriton

namespace PyTriton

instance {ε α : Type} [DecidableEq ε] [DecidableEq α] : DecidableEq (Except ε α) :=
  fun x y =>
    match x, y with
    | .ok a, .ok b =>
      match decEq a b with
      | isTrue h => isTrue (by rw [h])
      | isFalse h => isFalse (by intro hh; cases hh; exact h rfl)
    | .ok _, .error _ => isFalse (by intro hh; cases hh)
    | .error _, .ok _ => isFalse (by intro hh; cases hh)
    | .error e, .error e2 =>
      match decEq e e2 with
      | isTrue h => isTrue (by rw [h])
      | isFalse h => isFalse (by intro hh; cases hh; exact h rfl)

theorem contains_iff_mem (l : List String) (s : String) :
    l.contains s = true ↔ s ∈ l := by
  induction l with
  | nil => simp
  | cons a l ih =>
    by_cases h : s = a
    · subst h
      simp
    · have hb : (s == a) = false := beq_false_of_ne h
      simp only [List.contains_cons, List.mem_cons, Bool.or_eq_true, hb,
        Bool.false_or]
      rw [ih]
      constructor
      · exact Or.inr
      · rintro (rfl | hm)
        · exact absurd rfl h
        · exact hm

theorem keysEqSet_iff (a b : List String) :
    keysEqSet a b = true ↔ ∀ s, s ∈ a ↔ s ∈ b := by
  simp only [keysEqSet, Bool.and_eq_true, List.all_eq_true]
  constructor
  · rintro ⟨h1, h2⟩ s
    exact ⟨fun hs => (contains_iff_mem b s).mp (h1 s hs),
      fun hs => (contains_iff_mem a s).mp (h2 s hs)⟩
  · intro h
    exact ⟨fun s hs => (contains_iff_mem b s).mpr ((h s).mp hs),
      fun s hs => (contains_iff_mem a s).mpr ((h s).mpr hs)⟩

/-- C6: `convert_output` returns a mapping argument unchanged; a
list/tuple is rejected when its length differs from the configured output
list's length and otherwise zipped positionally with the declared output
names; any other argument type is rejected. -/
theorem convert_output_spec (cfg : List String) :
    (∀ m : List (String × Tensor), convert_output (.dict m) cfg = .ok m) ∧
    (∀ l : List Tensor,
      (l.length ≠ cfg.length → convert_output (.seq l) cfg =
        .error "Outputs length different than config outputs length") ∧
      (l.length = cfg.length →
        convert_output (.seq l) cfg = .ok (cfg.zip l) ∧
        ∀ (i : Nat) (nm : String) (x : Tensor), cfg[i]? = some nm → l[i]? = some x →
          (cfg.zip l)[i]? = some (nm, x))) ∧
    (convert_output .other cfg = .error "Unsupported output type") := by
  refine ⟨fun m => rfl, fun l => ⟨fun hne => ?_, fun he => ⟨?_, ?_⟩⟩, rfl⟩
  · simp [convert_output, hne]
  · simp [convert_output, he]
  · intro i nm x h1 h2
    exact getElem?_zip_eq h1 h2

/-- C6 witness: the three branches at concrete inputs. -/
theorem convert_output_spec_witness :
    convert_output (.dict [("a", ⟨[], [[1]]⟩)]) ["o"] = .ok [("a", ⟨[], [[1]]⟩)] ∧
    convert_output (.seq [⟨[], [[1]]⟩]) ["o1", "o2"] =
      .error "Outputs length different than config outputs length" ∧
    convert_output (.seq [⟨[], [[1]]⟩, ⟨[], [[2]]⟩]) ["o1", "o2"] =
      .ok [("o1", ⟨[], [[1]]⟩), ("o2", ⟨[], [[2]]⟩)] ∧
    convert_output .other ["o"] = .error "Unsupported output type" := by
  refine ⟨(convert_output_spec ["o"]).1 _, ?_, ?_, (convert_output_spec ["o"]).2.2⟩
  · exact ((convert_output_spec ["o1", "o2"]).2.1 _).1 (by decide)
  · exact (((convert_output_spec ["o1", "o2"]).2.1 _).2 (by decide)).1

theorem bisect_left_spec :
    ∀ l : List Nat, l.Pairwise (· ≤ ·) → ∀ x : Nat, (∃ v ∈ l, x ≤ v) →
      ∃ tgt, l[bisect_left l x]? = some tgt ∧ x ≤ tgt ∧
        ∀ v ∈ l, x ≤ v → tgt ≤ v := by
  intro l
  induction l with
  | nil =>
    intro _ x hex
    rcases hex with ⟨v, hv, _⟩
    cases hv
  | cons a rest ih =>
    intro hs x hex
    rcases List.pairwise_cons.mp hs with ⟨ha, hs'⟩
    by_cases hax : a < x
    · have hbs : bisect_left (a :: rest) x = bisect_left rest x + 1 := by
        simp [bisect_left, List.takeWhile_cons, hax]
      have hex' : ∃ v ∈ rest, x ≤ v := by
        rcases hex with ⟨v, hv, hxv⟩
        rcases List.mem_cons.mp hv with rfl | hv'
        · omega
        · exact ⟨v, hv', hxv⟩
      obtain ⟨tgt, h1, h2, h3⟩ := ih hs' x hex'
      refine ⟨tgt, ?_, h2, ?_⟩
      · rw [hbs, List.getElem?_cons_succ]
        exact h1
      · intro v hv hxv
        rcases List.mem_cons.mp hv with rfl | hv'
        · omega
        · exact h3 v hv' hxv
    · have hbs : bisect_left (a :: rest) x = 0 := by
        simp [bisect_left, List.takeWhile_cons, hax]
      refine ⟨a, by rw [hbs]; exact List.getElem?_cons_zero, by omega, ?_⟩
      intro v hv _
      rcases List.mem_cons.mp hv with rfl | hv'
      · exact le_rfl
      · exact ha v hv'

theorem padTensor_spec (t : Tensor) (target : Nat)
    (hpos : 0 < t.rows.length) (hle : t.rows.length ≤ target) :
    (padTensor t target).rows.length = target ∧
    (∀ j, j + 1 < t.rows.length → (padTensor t target).rows[j]? = t.rows[j]?) ∧
    (∀ j, t.rows.length - 1 ≤ j → j < target →
      (padTensor t target).rows[j]? = t.rows[t.rows.length - 1]?) := by
  have hne : t.rows ≠ [] := List.ne_nil_of_length_pos hpos
  have hlast := List.getLast?_eq_getLast t.rows hne
  have hrows : (padTensor t target).rows =
      t.rows.dropLast ++ List.replicate (target + 1 - t.rows.length) (t.rows.getLast hne) := by
    simp [padTensor, hlast]
  have hdl : t.rows.dropLast.length = t.rows.length - 1 := List.length_dropLast t.rows
  have hlen : (padTensor t target).rows.length = target := by
    rw [hrows]
    simp only [List.length_append, List.length_replicate, hdl]
    omega
  refine ⟨hlen, ?_, ?_⟩
  · intro j hj
    have hj2 : j < t.rows.length := by omega
    have hj3 : j < t.rows.dropLast.length := by omega
    rw [hrows, List.getElem?_append, if_pos hj3, List.getElem?_eq_getElem hj3,
      List.getElem?_eq_getElem hj2, List.getElem_dropLast]
  · intro j hj1 hj2
    have hlen2 : j < (t.rows.dropLast ++
        List.replicate (target + 1 - t.rows.length) (t.rows.getLast hne)).length := by
      simp only [List.length_append, List.length_replicate, hdl]
      omega
    have hge : t.rows.dropLast.length ≤ j := by omega
    have hn1 : t.rows.length - 1 < t.rows.length := by omega
    rw [hrows, List.getElem?_eq_getElem hlen2, List.getElem_append_right hge,
      List.getElem_replicate, List.getElem?_eq_getElem hn1]
    congr 1
    rw [List.getLast_eq_getElem]

theorem getD_of_getElem? {l : List Nat} {i d tgt : Nat} (h : l[i]? = some tgt) :
    l.getD i d = tgt := by
  obtain ⟨hlt, heq⟩ := List.getElem?_eq_some_iff.mp h
  rw [List.getD_eq_getElem l d hlt, heq]

theorem mem_of_getElem?_nat {l : List Nat} {i tgt : Nat} (h : l[i]? = some tgt) :
    tgt ∈ l := by
  obtain ⟨hlt, heq⟩ := List.getElem?_eq_some_iff.mp h
  exact heq ▸ List.getElem_mem hlt

/-- C4: with an ascending policy and a merged batch of uniform axis-0
length `cur` no greater than the maximum, `pad_batch` pads every input to
the smallest policy value ≥ `cur`: the first `cur - 1` rows are kept
unchanged and every remaining row equals the original last row. -/
theorem pad_batch_spec (preferred : Option (List Nat)) (maxBatch : Nat)
    (inputs : List (String × Tensor)) (cur : Nat) (hne : inputs ≠ [])
    (hcur : ∀ p ∈ inputs, (p.2).rows.length = cur) (hpos : 0 < cur)
    (hmax : cur ≤ maxBatch)
    (hsorted : (padPolicy preferred maxBatch).Pairwise (· ≤ ·)) :
    ∃ target,
      padInputs preferred maxBatch inputs =
        inputs.map (fun p => (p.1, padTensor p.2 target)) ∧
      target ∈ padPolicy preferred maxBatch ∧ cur ≤ target ∧
      (∀ v ∈ padPolicy preferred maxBatch, cur ≤ v → target ≤ v) ∧
      ∀ p ∈ inputs,
        (padTensor p.2 target).rows.length = target ∧
        (∀ j, j + 1 < cur → (padTensor p.2 target).rows[j]? = p.2.rows[j]?) ∧
        (∀ j, cur - 1 ≤ j → j < target →
          (padTensor p.2 target).rows[j]? = p.2.rows[cur - 1]?) := by
  obtain ⟨p0, rest, rfl⟩ := List.exists_cons_of_ne_nil hne
  have hmaxmem : maxBatch ∈ padPolicy preferred maxBatch := by
    simp [padPolicy]
  obtain ⟨tgt, hb0, hb1, hb2⟩ := bisect_left_spec (padPolicy preferred maxBatch)
    hsorted cur ⟨maxBatch, hmaxmem, hmax⟩
  have hcur0 : (p0.2).rows.length = cur := hcur p0 (List.mem_cons_self _ _)
  refine ⟨tgt, ?_, mem_of_getElem?_nat hb0, hb1, hb2, ?_⟩
  · show (p0 :: rest).map (fun p => (p.1,
        padTensor p.2 ((padPolicy preferred maxBatch).getD
          (bisect_left (padPolicy preferred maxBatch) (p0.2).rows.length) 0))) = _
    rw [hcur0, getD_of_getElem? hb0]
  · intro p hp
    have hlen := hcur p hp
    have hspec := padTensor_spec p.2 tgt (by omega) (by omega)
    rw [hlen] at hspec
    exact hspec

/-- C10: when the current batch size is itself a policy value, the
padding is the identity: every tensor passed on by `pad_batch` equals the
original tensor. -/
theorem pad_batch_identity (preferred : Option (List Nat)) (maxBatch : Nat)
    (inputs : List (String × Tensor)) (cur : Nat) (hne : inputs ≠ [])
    (hcur : ∀ p ∈ inputs, (p.2).rows.length = cur) (hpos : 0 < cur)
    (hsorted : (padPolicy preferred maxBatch).Pairwise (· ≤ ·))
    (hmem : cur ∈ padPolicy preferred maxBatch) :
    padInputs preferred maxBatch inputs = inputs := by
  obtain ⟨p0, rest, rfl⟩ := List.exists_cons_of_ne_nil hne
  obtain ⟨tgt, hb0, hb1, hb2⟩ := bisect_left_spec (padPolicy preferred maxBatch)
    hsorted cur ⟨cur, hmem, le_rfl⟩
  have htgt : tgt = cur := le_antisymm (hb2 cur hmem le_rfl) hb1
  rw [htgt] at hb0
  have hcur0 : (p0.2).rows.length = cur := hcur p0 (List.mem_cons_self _ _)
  have heq1 : padInputs preferred maxBatch (p0 :: rest) =
      (p0 :: rest).map (fun p => (p.1, padTensor p.2 cur)) := by
    show (p0 :: rest).map (fun p => (p.1,
        padTensor p.2 ((padPolicy preferred maxBatch).getD
          (bisect_left (padPolicy preferred maxBatch) (p0.2).rows.length) 0))) = _
    rw [hcur0, getD_of_getElem? hb0]
  rw [heq1]
  have hid : ∀ p ∈ p0 :: rest,
      (fun p : String × Tensor => (p.1, padTensor p.2 cur)) p = id p := by
    intro p hp
    have hlen := hcur p hp
    have hne2 : p.2.rows ≠ [] := by
      intro h
      rw [h] at hlen
      simp at hlen
      omega
    have hlast := List.getLast?_eq_getLast p.2.rows hne2
    have hrows : (padTensor p.2 cur).rows = p.2.rows := by
      simp only [padTensor, hlast]
      rw [hlen]
      have hsub : cur + 1 - cur = 1 := by omega
      rw [hsub]
      simp only [List.replicate_one]
      exact List.dropLast_append_getLast hne2
    have hpt : padTensor p.2 cur = p.2 := by
      have : padTensor p.2 cur = { rowShape := p.2.rowShape, rows := (padTensor p.2 cur).rows } := rfl
      rw [this, hrows]
    simp [hpt]
  rw [List.map_congr_left hid, List.map_id]

end PyTriton

namespace PyTriton

/-- C4 witness: policy [4, 8] and current batch size 3 pad to 4 by
repeating the last row once. -/
theorem pad_batch_spec_witness :
    ∃ target,
      padInputs (some [4, 8]) 8 [("x", ⟨[], [[1], [2], [3]]⟩)] =
        [("x", (⟨[], [[1], [2], [3]]⟩ : Tensor))].map
          (fun p => (p.1, padTensor p.2 target)) ∧
      target ∈ padPolicy (some [4, 8]) 8 ∧ 3 ≤ target ∧
      (∀ v ∈ padPolicy (some [4, 8]) 8, 3 ≤ v → target ≤ v) ∧
      ∀ p ∈ [("x", (⟨[], [[1], [2], [3]]⟩ : Tensor))],
        (padTensor p.2 target).rows.length = target ∧
        (∀ j, j + 1 < 3 → (padTensor p.2 target).rows[j]? = p.2.rows[j]?) ∧
        (∀ j, 3 - 1 ≤ j → j < target →
          (padTensor p.2 target).rows[j]? = p.2.rows[3 - 1]?) :=
  pad_batch_spec (some [4, 8]) 8 _ 3 (by decide) (by decide) (by decide)
    (by decide) (by decide)

/-- C10 witness: a batch whose size 2 is a preferred size passes through
unchanged. -/
theorem pad_batch_identity_witness :
    padInputs (some [2, 4]) 8 [("x", ⟨[3], [[1, 2, 3], [4, 5, 6]]⟩)] =
      [("x", ⟨[3], [[1, 2, 3], [4, 5, 6]]⟩)] :=
  pad_batch_identity (some [2, 4]) 8 _ 2 (by decide) (by decide) (by decide)
    (by decide) (by decide)

theorem lookup_map_snd (g : Tensor → Tensor) (l : List (String × Tensor)) (k : String) :
    (l.map (fun d => (d.1, g d.2))).lookup k = (l.lookup k).map g := by
  induction l with
  | nil => rfl
  | cons d l ih =>
    obtain ⟨dk, dv⟩ := d
    by_cases h : (k == dk) = true
    · simp [List.lookup_cons, h]
    · have h' : (k == dk) = false := Bool.eq_false_iff.mpr h
      simp [List.lookup_cons, h', ih]

theorem lookup_eq_of_mem_nodup {l : List (String × Tensor)} {k : String} {v : Tensor}
    (hmem : (k, v) ∈ l) (hnd : (l.map Prod.fst).Nodup) : l.lookup k = some v := by
  induction l with
  | nil => cases hmem
  | cons d l ih =>
    obtain ⟨dk, dv⟩ := d
    have hnd' : (dk :: l.map Prod.fst).Nodup := by simpa using hnd
    rcases List.mem_cons.mp hmem with heq | hm
    · cases heq
      simp [List.lookup_cons]
    · have hk_in : k ∈ l.map Prod.fst := by
        have := List.mem_map_of_mem Prod.fst hm
        simpa using this
      have hdk : dk ∉ l.map Prod.fst := (List.nodup_cons.mp hnd').1
      have hne : (k == dk) = false := beq_false_of_ne (fun h => hdk (h ▸ hk_in))
      simp only [List.lookup_cons, hne]
      exact ih hm (List.nodup_cons.mp hnd').2

theorem optMapM_spec (f : α → Option β) :
    ∀ l : List α, (∀ a ∈ l, (f a).isSome) →
      ∃ l', optMapM f l = some l' ∧ l'.length = l.length ∧
        ∀ i : Nat, l'[i]? = (l[i]?).bind f := by
  intro l
  induction l with
  | nil =>
    intro _
    exact ⟨[], rfl, rfl, fun i => by cases i <;> rfl⟩
  | cons a l ih =>
    intro h
    obtain ⟨b, hb⟩ := Option.isSome_iff_exists.mp (h a (List.mem_cons_self _ _))
    obtain ⟨l', h1, h2, h3⟩ := ih (fun x hx => h x (List.mem_cons_of_mem _ hx))
    refine ⟨b :: l', ?_, by simp [h2], ?_⟩
    · simp [optMapM, hb, h1]
    · intro i
      cases i with
      | zero => simp [hb]
      | succ i => simpa using h3 i

theorem fillRequest_eq (defaults : List (String × Tensor)) (r : Request) (hr : r ≠ []) :
    fillRequest defaults r = some (r ++
      ((defaults.filter (fun d => (r.lookup d.1).isNone)).map
        (fun d => (d.1, tileNewAxis d.2 (batchSizeOf r))))) := by
  obtain ⟨p0, rest, rfl⟩ := List.exists_cons_of_ne_nil hr
  obtain ⟨k0, t0⟩ := p0
  rfl

/-- C7: for every request and every default key absent from it,
`fill_optionals` inserts a tensor of axis-0 length equal to the request's
batch size (taken from its first input) whose every row equals the
flattened default value. -/
theorem fill_optionals_spec (defaults : List (String × Tensor))
    (f : List Request → γ) (reqs : List Request)
    (hnd : (defaults.map Prod.fst).Nodup)
    (hne : ∀ r ∈ reqs, r ≠ []) :
    (∃ reqs', optMapM (fillRequest defaults) reqs = some reqs' ∧
      fill_optionals defaults f reqs = some (f reqs') ∧
      reqs'.length = reqs.length ∧
      ∀ i : Nat, reqs'[i]? = (reqs[i]?).bind (fillRequest defaults)) ∧
    ∀ r ∈ reqs, ∀ r', fillRequest defaults r = some r' →
      ∀ k v, (k, v) ∈ defaults → r.lookup k = none →
        r'.lookup k = some (tileNewAxis v (batchSizeOf r)) ∧
        (tileNewAxis v (batchSizeOf r)).rows.length = batchSizeOf r ∧
        ∀ row ∈ (tileNewAxis v (batchSizeOf r)).rows, row = v.flatten := by
  constructor
  · obtain ⟨reqs', h1, h2, h3⟩ := optMapM_spec (fillRequest defaults) reqs
      (fun r hr => by rw [fillRequest_eq defaults r (hne r hr)]; rfl)
    exact ⟨reqs', h1, by simp [fill_optionals, h1], h2, h3⟩
  · intro r hr r' hr' k v hkv hnone
    rw [fillRequest_eq defaults r (hne r hr)] at hr'
    have hr'' := Option.some_inj.mp hr'
    subst hr''
    refine ⟨?_, by simp [tileNewAxis], ?_⟩
    · rw [List.lookup_append, hnone]
      have hmap := lookup_map_snd (fun t => tileNewAxis t (batchSizeOf r))
        (defaults.filter (fun d => (r.lookup d.1).isNone)) k
      have hfl : (defaults.filter (fun d => (r.lookup d.1).isNone)).lookup k = some v := by
        apply lookup_eq_of_mem_nodup
        · exact List.mem_filter.mpr ⟨hkv, by simp [hnone]⟩
        · exact hnd.sublist ((List.filter_sublist _).map Prod.fst)
      simp only [Option.none_or]
      rw [hmap, hfl]
      rfl
    · intro row hrow
      rcases List.mem_replicate.mp hrow with ⟨_, rfl⟩
      rfl

/-- C7 witness: one request missing one default key. -/
theorem fill_optionals_spec_witness :
    (∃ reqs', optMapM (fillRequest [("d", ⟨[], [[7]]⟩)]) [[("x", ⟨[], [[1], [2]]⟩)]] =
        some reqs' ∧
      fill_optionals [("d", ⟨[], [[7]]⟩)] (fun l => l) [[("x", ⟨[], [[1], [2]]⟩)]] =
        some ((fun l => l) reqs') ∧
      reqs'.length = [[("x", (⟨[], [[1], [2]]⟩ : Tensor))]].length ∧
      ∀ i : Nat, reqs'[i]? = ([[("x", (⟨[], [[1], [2]]⟩ : Tensor))]][i]?).bind
        (fillRequest [("d", ⟨[], [[7]]⟩)])) ∧
    ∀ r ∈ [[("x", (⟨[], [[1], [2]]⟩ : Tensor))]], ∀ r',
      fillRequest [("d", ⟨[], [[7]]⟩)] r = some r' →
      ∀ k v, (k, v) ∈ [("d", (⟨[], [[7]]⟩ : Tensor))] → r.lookup k = none →
        r'.lookup k = some (tileNewAxis v (batchSizeOf r)) ∧
        (tileNewAxis v (batchSizeOf r)).rows.length = batchSizeOf r ∧
        ∀ row ∈ (tileNewAxis v (batchSizeOf r)).rows, row = v.flatten :=
  fill_optionals_spec [("d", ⟨[], [[7]]⟩)] (fun l => l) [[("x", ⟨[], [[1], [2]]⟩)]]
    (by decide) (by decide)

/-- C8: `fill_optionals` never removes a key and never changes a present
key's value; the list passed on has the same length and order, and each
request is its original followed by exactly the missing default keys. -/
theorem fill_optionals_frame (defaults : List (String × Tensor))
    (f : List Request → γ) (reqs : List Request)
    (hne : ∀ r ∈ reqs, r ≠ []) :
    (∃ reqs', optMapM (fillRequest defaults) reqs = some reqs' ∧
      fill_optionals defaults f reqs = some (f reqs') ∧
      reqs'.length = reqs.length ∧
      ∀ i : Nat, reqs'[i]? = (reqs[i]?).bind (fillRequest defaults)) ∧
    ∀ r ∈ reqs, ∀ r', fillRequest defaults r = some r' →
      r' = r ++ ((defaults.filter (fun d => (r.lookup d.1).isNone)).map
        (fun d => (d.1, tileNewAxis d.2 (batchSizeOf r)))) ∧
      keySet r' = keySet r ++
        (defaults.filter (fun d => (r.lookup d.1).isNone)).map Prod.fst ∧
      ∀ k t, r.lookup k = some t → r'.lookup k = some t := by
  constructor
  · obtain ⟨reqs', h1, h2, h3⟩ := optMapM_spec (fillRequest defaults) reqs
      (fun r hr => by rw [fillRequest_eq defaults r (hne r hr)]; rfl)
    exact ⟨reqs', h1, by simp [fill_optionals, h1], h2, h3⟩
  · intro r hr r' hr'
    rw [fillRequest_eq defaults r (hne r hr)] at hr'
    have hr'' := Option.some_inj.mp hr'
    subst hr''
    refine ⟨rfl, ?_, ?_⟩
    · simp [keySet, List.map_append, List.map_map, Function.comp]
    · intro k t hk
      rw [List.lookup_append, hk]
      rfl

/-- C8 witness: a request already holding the default key is unchanged
except for the other missing key. -/
theorem fill_optionals_frame_witness :
    (∃ reqs', optMapM (fillRequest [("d", ⟨[], [[7]]⟩)]) [[("d", ⟨[], [[9], [9]]⟩)]] =
        some reqs' ∧
      fill_optionals [("d", ⟨[], [[7]]⟩)] (fun l => l) [[("d", ⟨[], [[9], [9]]⟩)]] =
        some ((fun l => l) reqs') ∧
      reqs'.length = [[("d", (⟨[], [[9], [9]]⟩ : Tensor))]].length ∧
      ∀ i : Nat, reqs'[i]? = ([[("d", (⟨[], [[9], [9]]⟩ : Tensor))]][i]?).bind
        (fillRequest [("d", ⟨[], [[7]]⟩)])) ∧
    ∀ r ∈ [[("d", (⟨[], [[9], [9]]⟩ : Tensor))]], ∀ r',
      fillRequest [("d", ⟨[], [[7]]⟩)] r = some r' →
      r' = r ++ (([("d", (⟨[], [[7]]⟩ : Tensor))].filter
          (fun d => (r.lookup d.1).isNone)).map
        (fun d => (d.1, tileNewAxis d.2 (batchSizeOf r)))) ∧
      keySet r' = keySet r ++
        ([("d", (⟨[], [[7]]⟩ : Tensor))].filter
          (fun d => (r.lookup d.1).isNone)).map Prod.fst ∧
      ∀ k t, r.lookup k = some t → r'.lookup k = some t :=
  fill_optionals_frame [("d", ⟨[], [[7]]⟩)] (fun l => l) [[("d", ⟨[], [[9], [9]]⟩)]]
    (by decide)

end PyTriton

namespace PyTriton

theorem pyMax_spec : ∀ l : List Nat, l ≠ [] →
    ∃ m, pyMax l = some m ∧ m ∈ l ∧ ∀ x ∈ l, x ≤ m := by
  intro l
  induction l with
  | nil => intro h; exact absurd rfl h
  | cons a l ih =>
    intro _
    by_cases hl : l = []
    · subst hl
      refine ⟨a, by simp [pyMax], List.mem_cons_self _ _, ?_⟩
      intro x hx
      simp at hx
      subst hx
      exact le_rfl
    · obtain ⟨m', hm', hmem, hub⟩ := ih hl
      refine ⟨max a m', by simp [pyMax, hm'], ?_, ?_⟩
      · rcases Nat.le_total a m' with h | h
        · rw [Nat.max_eq_right h]
          exact List.mem_cons_of_mem _ hmem
        · rw [Nat.max_eq_left h]
          exact List.mem_cons_self _ _
      · intro x hx
        rcases List.mem_cons.mp hx with rfl | hx'
        · exact Nat.le_max_left _ _
        · exact le_trans (hub x hx') (Nat.le_max_right _ _)

theorem firstRowVal_spec (t : Tensor) (h1 : t.rows ≠ []) (h2 : t.rowShape ≠ [])
    (h3 : ∀ d ∈ t.rowShape, 0 < d)
    (h4 : ∀ row ∈ t.rows, row.length = t.rowShape.prod) :
    ((∀ d ∈ t.rowShape, d = 1) →
      firstRowVal t = .ok (.scalar ((t.rows.headD []).headD 0))) ∧
    ((¬ ∀ d ∈ t.rowShape, d = 1) →
      firstRowVal t = .ok (.arr t.rowShape (t.rows.headD []))) := by
  obtain ⟨row, rest, hrows⟩ := List.exists_cons_of_ne_nil h1
  obtain ⟨m, hm, hmem, hub⟩ := pyMax_spec t.rowShape h2
  have hhead : t.rows.head? = some row := by rw [hrows]; rfl
  have hheadD : t.rows.headD [] = row := by rw [hrows]; rfl
  constructor
  · intro hall
    have hm1 : m = 1 := hall m hmem
    have hlen : row.length = 1 := by
      rw [h4 row (by rw [hrows]; exact List.mem_cons_self _ _)]
      exact List.prod_eq_one hall
    obtain ⟨x, hx⟩ : ∃ x, row = [x] := by
      cases row with
      | nil => simp at hlen
      | cons x r2 =>
        cases r2 with
        | nil => exact ⟨x, rfl⟩
        | cons y r3 => simp at hlen
    subst hx
    simp [firstRowVal, hhead, hm, hm1, hheadD]
  · intro hnall
    push_neg at hnall
    obtain ⟨d, hd, hd1⟩ := hnall
    have hm1 : m ≠ 1 := by
      have h5 := h3 d hd
      have h6 := hub d hd
      omega
    simp [firstRowVal, hhead, hm, hm1, hheadD]

theorem exMapM_spec (f : α → Except String β) :
    ∀ l : List α, (∀ a ∈ l, ∃ b, f a = .ok b) →
      ∃ l', exMapM f l = .ok l' ∧ l'.length = l.length ∧
        ∀ (i : Nat) (a : α), l[i]? = some a →
          ∃ b, f a = .ok b ∧ l'[i]? = some b := by
  intro l
  induction l with
  | nil =>
    intro _
    exact ⟨[], rfl, rfl, by intro i a h; simp at h⟩
  | cons a l ih =>
    intro h
    obtain ⟨b, hb⟩ := h a (List.mem_cons_self _ _)
    obtain ⟨l', h1, h2, h3⟩ := ih (fun x hx => h x (List.mem_cons_of_mem _ hx))
    refine ⟨b :: l', by simp [exMapM, hb, h1], by simp [h2], ?_⟩
    intro i x hx
    cases i with
    | zero =>
      simp only [List.getElem?_cons_zero, Option.some.injEq] at hx
      subst hx
      exact ⟨b, hb, by simp⟩
    | succ i =>
      simp only [List.getElem?_cons_succ] at hx
      obtain ⟨b', hb1, hb2⟩ := h3 i x hx
      exact ⟨b', hb1, by simpa using hb2⟩

/-- C9 counterexample: for a 1-D tensor (empty row shape, where every
dimension of the first row trivially has size 1) the code raises
`max() arg is an empty sequence` instead of producing the claimed bare
scalar. -/
theorem first_value_counterexample :
    first_value ["p"] [("p", ⟨[], [[5], [6]]⟩)] =
      .error "ValueError: max() arg is an empty sequence" ∧
    first_value ["p"] [("p", ⟨[], [[5], [6]]⟩)] ≠
      .ok [("p", PyVal.scalar 5)] := by
  refine ⟨rfl, ?_⟩
  decide

/-- C9 (amended): for selected keys whose tensors have at least one row,
rows of rank at least one, positive dimensions and row-major storage,
`first_value` replaces each selected key's value by the first row of its
tensor, collapsed to a bare scalar exactly when every dimension of that
row has size 1; non-selected keyword arguments are unchanged. -/
theorem first_value_spec (ks : List String) (kwargs : List (String × Tensor))
    (hpres : ∀ k ∈ ks, (kwargs.lookup k).isSome = true)
    (hsel : ∀ p ∈ kwargs, ks.contains p.1 = true →
      (p.2 : Tensor).rows ≠ [] ∧ (p.2 : Tensor).rowShape ≠ [] ∧
      (∀ d ∈ (p.2 : Tensor).rowShape, 0 < d) ∧
      ∀ row ∈ (p.2 : Tensor).rows, row.length = (p.2 : Tensor).rowShape.prod) :
    ∃ out, first_value ks kwargs = .ok out ∧ out.length = kwargs.length ∧
      ∀ (i : Nat) (p : String × Tensor), kwargs[i]? = some p →
        (ks.contains p.1 = false → out[i]? = some (p.1, Tensor.toVal p.2)) ∧
        (ks.contains p.1 = true →
          ((∀ d ∈ (p.2 : Tensor).rowShape, d = 1) →
            out[i]? = some (p.1, PyVal.scalar (((p.2 : Tensor).rows.headD []).headD 0))) ∧
          ((¬ ∀ d ∈ (p.2 : Tensor).rowShape, d = 1) →
            out[i]? = some (p.1,
              PyVal.arr (p.2 : Tensor).rowShape ((p.2 : Tensor).rows.headD [])))) := by
  have hcheck : ks.all (fun k => (kwargs.lookup k).isSome) = true :=
    List.all_eq_true.mpr hpres
  set F : String × Tensor → Except String (String × PyVal) := fun p =>
    if ks.contains p.1 then (firstRowVal p.2).map (fun v => (p.1, v))
    else .ok (p.1, p.2.toVal) with hF
  have hok : ∀ p ∈ kwargs, ∃ b, F p = .ok b := by
    intro p hp
    by_cases hc : ks.contains p.1 = true
    · obtain ⟨ha, hbs, hcp, hd⟩ := hsel p hp hc
      by_cases hall : ∀ d ∈ (p.2 : Tensor).rowShape, d = 1
      · have he := (firstRowVal_spec p.2 ha hbs hcp hd).1 hall
        exact ⟨(p.1, .scalar (((p.2 : Tensor).rows.headD []).headD 0)),
          by rw [hF]; simp only [hc, if_pos, he, Except.map]⟩
      · have he := (firstRowVal_spec p.2 ha hbs hcp hd).2 hall
        exact ⟨(p.1, .arr (p.2 : Tensor).rowShape ((p.2 : Tensor).rows.headD [])),
          by rw [hF]; simp only [hc, if_pos, he, Except.map]⟩
    · exact ⟨(p.1, p.2.toVal), by simp only [hF]; exact if_neg hc⟩
  obtain ⟨out, h1, h2, h3⟩ := exMapM_spec F kwargs hok
  refine ⟨out, ?_, h2, ?_⟩
  · show (if ks.all (fun k => (kwargs.lookup k).isSome) = true then
        exMapM F kwargs else .error "KeyError") = .ok out
    rw [if_pos hcheck]
    exact h1
  · intro i p hp
    obtain ⟨b, hb1, hb2⟩ := h3 i p hp
    obtain ⟨hlt, heq⟩ := List.getElem?_eq_some_iff.mp hp
    have hpm : p ∈ kwargs := heq ▸ List.getElem_mem hlt
    constructor
    · intro hc
      have hcn : ¬ ks.contains p.1 = true := by rw [hc]; exact Bool.false_ne_true
      have hFp : F p = .ok (p.1, p.2.toVal) := by simp only [hF]; exact if_neg hcn
      rw [hFp] at hb1
      have hbeq : (p.1, p.2.toVal) = b := Except.ok.inj hb1
      rw [hb2, ← hbeq]
    · intro hc
      obtain ⟨ha, hbs, hcp, hd⟩ := hsel p hpm hc
      constructor
      · intro hall
        have he := (firstRowVal_spec p.2 ha hbs hcp hd).1 hall
        have hFp : F p = .ok (p.1, .scalar (((p.2 : Tensor).rows.headD []).headD 0)) := by
          rw [hF]
          simp only [hc, if_pos, he, Except.map]
        rw [hFp] at hb1
        have hbeq := Except.ok.inj hb1
        rw [hb2, ← hbeq]
      · intro hall
        have he := (firstRowVal_spec p.2 ha hbs hcp hd).2 hall
        have hFp : F p = .ok (p.1,
            .arr (p.2 : Tensor).rowShape ((p.2 : Tensor).rows.headD [])) := by
          rw [hF]
          simp only [hc, if_pos, he, Except.map]
        rw [hFp] at hb1
        have hbeq := Except.ok.inj hb1
        rw [hb2, ← hbeq]

/-- C9 witness: a selected 2-D one-column key collapses to a scalar, a
non-selected key is unchanged. -/
theorem first_value_spec_witness :
    ∃ out, first_value ["p"] [("p", ⟨[1], [[5], [6]]⟩), ("x", ⟨[2], [[1, 2]]⟩)] =
        .ok out ∧
      out.length = [("p", (⟨[1], [[5], [6]]⟩ : Tensor)),
        ("x", (⟨[2], [[1, 2]]⟩ : Tensor))].length ∧
      ∀ (i : Nat) (p : String × Tensor),
        [("p", (⟨[1], [[5], [6]]⟩ : Tensor)),
          ("x", (⟨[2], [[1, 2]]⟩ : Tensor))][i]? = some p →
        (List.contains ["p"] p.1 = false → out[i]? = some (p.1, Tensor.toVal p.2)) ∧
        (List.contains ["p"] p.1 = true →
          ((∀ d ∈ (p.2 : Tensor).rowShape, d = 1) →
            out[i]? = some (p.1, PyVal.scalar (((p.2 : Tensor).rows.headD []).headD 0))) ∧
          ((¬ ∀ d ∈ (p.2 : Tensor).rowShape, d = 1) →
            out[i]? = some (p.1,
              PyVal.arr (p.2 : Tensor).rowShape ((p.2 : Tensor).rows.headD [])))) :=
  first_value_spec ["p"] [("p", ⟨[1], [[5], [6]]⟩), ("x", ⟨[2], [[1, 2]]⟩)]
    (by decide) (by decide)

end PyTriton

namespace PyTriton

theorem batch_eq (f : List (String × Tensor) → PyOutput) (cfg : List String)
    (reqs : List Request) :
    batch f cfg reqs =
      if (reqs.drop 1).all (fun r => keysEqSet (keySet (reqs.headD [])) (keySet r)) then
        (match convert_output (f (mergeInputs reqs (keySet (reqs.headD [])))) cfg with
         | .ok outputs => .ok (splitOutputsFrom outputs 0 reqs)
         | .error e => .error e)
      else .error "Cannot batch requests with different set of inputs keys" := rfl

theorem convert_output_error_msgs (out : PyOutput) (cfg : List String) (e : String)
    (h : convert_output out cfg = .error e) :
    e = "Outputs length different than config outputs length" ∨
      e = "Unsupported output type" := by
  cases out with
  | dict m => simp [convert_output] at h
  | seq l =>
    by_cases hl : l.length ≠ cfg.length
    · rw [convert_output, if_pos hl] at h
      exact Or.inl (Except.error.inj h).symm
    · rw [convert_output, if_neg hl] at h
      cases h
  | other => exact Or.inr (Except.error.inj h).symm

/-- C3: the batch decorator fails with the key-set validation error iff
some request's key set differs, order-independently, from the first
request's; and in that case the result is that error for every wrapped
function and output config, so the wrapped function is never invoked. -/
theorem batch_keyset_check (f : List (String × Tensor) → PyOutput)
    (cfg : List String) (reqs : List Request) (_hne : reqs ≠ []) :
    (batch f cfg reqs = .error "Cannot batch requests with different set of inputs keys" ↔
      ∃ r ∈ reqs.drop 1, ¬ ∀ s : String, s ∈ keySet r ↔ s ∈ keySet (reqs.headD [])) ∧
    ((∃ r ∈ reqs.drop 1, ¬ ∀ s : String, s ∈ keySet r ↔ s ∈ keySet (reqs.headD [])) →
      ∀ (g : List (String × Tensor) → PyOutput) (cfg' : List String),
        batch g cfg' reqs =
          .error "Cannot batch requests with different set of inputs keys") := by
  have hchk : ∀ b : Bool,
      (reqs.drop 1).all (fun r => keysEqSet (keySet (reqs.headD [])) (keySet r)) = b →
      (b = false ↔
        ∃ r ∈ reqs.drop 1, ¬ ∀ s : String, s ∈ keySet r ↔ s ∈ keySet (reqs.headD [])) := by
    intro b hb
    cases b with
    | true =>
      simp only [Bool.true_eq_false, false_iff]
      rw [List.all_eq_true] at hb
      push_neg
      intro r hr
      have h1 := (keysEqSet_iff _ _).mp (hb r hr)
      intro s
      exact (h1 s).symm
    | false =>
      simp only [eq_self_iff_true, true_iff]
      have hb' : ¬ ∀ r ∈ reqs.drop 1,
          keysEqSet (keySet (reqs.headD [])) (keySet r) = true := by
        rw [← List.all_eq_true, hb]
        exact Bool.false_ne_true
      push_neg at hb'
      obtain ⟨r, hr, hkr⟩ := hb'
      refine ⟨r, hr, fun hall => hkr ((keysEqSet_iff _ _).mpr (fun s => (hall s).symm))⟩
  cases hb : (reqs.drop 1).all (fun r => keysEqSet (keySet (reqs.headD [])) (keySet r)) with
  | true =>
    have hiff := hchk true hb
    constructor
    · rw [batch_eq, if_pos hb]
      constructor
      · intro h
        cases hco : convert_output (f (mergeInputs reqs (keySet (reqs.headD [])))) cfg with
        | ok outputs => rw [hco] at h; cases h
        | error e =>
          rw [hco] at h
          have he := Except.error.inj h
          rcases convert_output_error_msgs _ _ _ hco with h1 | h1 <;>
            · rw [h1] at he
              exact absurd he (by decide)
      · intro h
        exact absurd h (by simpa using hiff)
    · intro h
      exact absurd h (by simpa using hchk true hb)
  | false =>
    have hiff := hchk false hb
    constructor
    · rw [batch_eq, if_neg (by rw [hb]; exact Bool.false_ne_true)]
      exact iff_of_true rfl (hiff.mp rfl)
    · intro _ g cfg'
      rw [batch_eq, if_neg (by rw [hb]; exact Bool.false_ne_true)]

/-- C3 witness: two requests with different key sets produce the keyset
validation error regardless of the wrapped function, and a matching pair
does not. -/
theorem batch_keyset_check_witness :
    (batch (fun _ => PyOutput.other) []
        [[("a", ⟨[], [[1]]⟩)], [("b", ⟨[], [[2]]⟩)]] =
      .error "Cannot batch requests with different set of inputs keys" ↔
      ∃ r ∈ [[("a", (⟨[], [[1]]⟩ : Tensor))], [("b", (⟨[], [[2]]⟩ : Tensor))]].drop 1,
        ¬ ∀ s : String, s ∈ keySet r ↔
          s ∈ keySet ([[("a", (⟨[], [[1]]⟩ : Tensor))],
            [("b", (⟨[], [[2]]⟩ : Tensor))]].headD [])) ∧
    ((∃ r ∈ [[("a", (⟨[], [[1]]⟩ : Tensor))], [("b", (⟨[], [[2]]⟩ : Tensor))]].drop 1,
        ¬ ∀ s : String, s ∈ keySet r ↔
          s ∈ keySet ([[("a", (⟨[], [[1]]⟩ : Tensor))],
            [("b", (⟨[], [[2]]⟩ : Tensor))]].headD [])) →
      ∀ (g : List (String × Tensor) → PyOutput) (cfg' : List String),
        batch g cfg' [[("a", ⟨[], [[1]]⟩)], [("b", ⟨[], [[2]]⟩)]] =
          .error "Cannot batch requests with different set of inputs keys") :=
  batch_keyset_check (fun _ => PyOutput.other) []
    [[("a", ⟨[], [[1]]⟩)], [("b", ⟨[], [[2]]⟩)]] (by decide)

end PyTriton

namespace PyTriton

theorem lookup_map_self (F : String → Tensor) :
    ∀ (names : List String) (k : String), k ∈ names →
      (names.map (fun nm => (nm, F nm))).lookup k = some (F k) := by
  intro names
  induction names with
  | nil => intro k hk; cases hk
  | cons nm names ih =>
    intro k hk
    by_cases h : k = nm
    · subst h
      simp [List.lookup_cons]
    · have hb : (k == nm) = false := beq_false_of_ne h
      rcases List.mem_cons.mp hk with rfl | hk'
      · exact absurd rfl h
      · simp only [List.map_cons, List.lookup_cons, hb]
        exact ih k hk'

theorem lookup_isSome_of_mem_keySet :
    ∀ (r : Request) (k : String), k ∈ keySet r →
      ∃ t, r.lookup k = some t ∧ (k, t) ∈ r := by
  intro r
  induction r with
  | nil => intro k hk; cases hk
  | cons p r ih =>
    obtain ⟨pk, pv⟩ := p
    intro k hk
    by_cases h : k = pk
    · subst h
      exact ⟨pv, by simp [List.lookup_cons], List.mem_cons_self _ _⟩
    · have hb : (k == pk) = false := beq_false_of_ne h
      have hk' : k ∈ keySet r := by
        simp only [keySet, List.map_cons, List.mem_cons] at hk
        rcases hk with heq | hm
        · exact absurd heq h
        · exact hm
      obtain ⟨t, h1, h2⟩ := ih k hk'
      exact ⟨t, by simp only [List.lookup_cons, hb]; exact h1,
        List.mem_cons_of_mem _ h2⟩

theorem splitOutputsFrom_length (outputs : List (String × Tensor)) :
    ∀ (s : Nat) (reqs : List Request),
      (splitOutputsFrom outputs s reqs).length = reqs.length := by
  intro s reqs
  induction reqs generalizing s with
  | nil => rfl
  | cons r rs ih => simp [splitOutputsFrom, ih]

theorem splitOutputsFrom_getElem (outputs : List (String × Tensor)) :
    ∀ (s : Nat) (reqs : List Request) (i : Nat) (r : Request), reqs[i]? = some r →
      (splitOutputsFrom outputs s reqs)[i]? =
        some (outputs.map (fun p => (p.1,
          sliceTensor p.2 (s + ((reqs.take i).map batchSizeOf).sum) (batchSizeOf r)))) := by
  intro s reqs
  induction reqs generalizing s with
  | nil => intro i r h; simp at h
  | cons r0 rs ih =>
    intro i r h
    cases i with
    | zero =>
      simp only [List.getElem?_cons_zero, Option.some.injEq] at h
      subst h
      simp [splitOutputsFrom]
    | succ i =>
      simp only [List.getElem?_cons_succ] at h
      have hrec := ih (s + batchSizeOf r0) i r h
      simp only [splitOutputsFrom, List.getElem?_cons_succ]
      rw [hrec]
      have harith : s + batchSizeOf r0 + ((rs.take i).map batchSizeOf).sum =
          s + (((r0 :: rs).take (i + 1)).map batchSizeOf).sum := by
        simp only [List.take_succ_cons, List.map_cons, List.sum_cons]
        omega
      rw [harith]

theorem splitOutputs_flatten (outs : List (String × Tensor)) (nm : String) (t : Tensor)
    (hmem : (nm, t) ∈ outs) (hnd : (outs.map Prod.fst).Nodup) :
    ∀ (s : Nat) (reqs : List Request),
      ((splitOutputsFrom outs s reqs).map (fun res => (getTensor res nm).rows)).flatten =
        (t.rows.drop s).take ((reqs.map batchSizeOf).sum) := by
  intro s reqs
  induction reqs generalizing s with
  | nil => simp [splitOutputsFrom]
  | cons r rs ih =>
    simp only [splitOutputsFrom, List.map_cons, List.flatten_cons, List.sum_cons]
    have hlook : getTensor
        (outs.map (fun p => (p.1, sliceTensor p.2 s (batchSizeOf r)))) nm =
        sliceTensor t s (batchSizeOf r) := by
      rw [getTensor, lookup_map_snd (fun tt => sliceTensor tt s (batchSizeOf r)) outs nm,
        lookup_eq_of_mem_nodup hmem hnd]
      rfl
    rw [hlook, ih (s + batchSizeOf r)]
    show (t.rows.drop s).take (batchSizeOf r) ++
        (t.rows.drop (s + batchSizeOf r)).take ((rs.map batchSizeOf).sum) = _
    rw [show t.rows.drop (s + batchSizeOf r) =
        (t.rows.drop s).drop (batchSizeOf r) from (List.drop_drop _ _ _).symm]
    exact (List.take_add _ _ _).symm

/-- C2: on a non-empty uniform-key-set request list whose tensors share
each request's local batch size, `batch` invokes the wrapped function
exactly once on, per input name, the axis-0 concatenation of all
requests' tensors in request-list order (total length the sum of the
batch sizes); the i-th result maps each output name to the half-open
axis-0 slice at the prefix-sum boundary, and concatenating the
per-request slices reproduces each merged output. -/
theorem batch_merge_split_spec (f : List (String × Tensor) → PyOutput)
    (cfg : List String) (reqs : List Request) (outs : List (String × Tensor))
    (_hne : reqs ≠ [])
    (hkeys : ∀ r ∈ reqs, ∀ s : String, s ∈ keySet r ↔ s ∈ keySet (reqs.headD []))
    (hbs : ∀ r ∈ reqs, ∀ p ∈ r, (p.2 : Tensor).rows.length = batchSizeOf r)
    (hout : f (mergeInputs reqs (keySet (reqs.headD []))) = .dict outs)
    (hond : (outs.map Prod.fst).Nodup) :
    batch f cfg reqs = .ok (splitOutputsFrom outs 0 reqs) ∧
    (∀ nm ∈ keySet (reqs.headD []),
      (mergeInputs reqs (keySet (reqs.headD []))).lookup nm =
        some (concatTensors (reqs.map (fun r => getTensor r nm))) ∧
      (concatTensors (reqs.map (fun r => getTensor r nm))).rows =
        (reqs.map (fun r => (getTensor r nm).rows)).flatten ∧
      (concatTensors (reqs.map (fun r => getTensor r nm))).rows.length =
        (reqs.map batchSizeOf).sum) ∧
    ((splitOutputsFrom outs 0 reqs).length = reqs.length ∧
      ∀ (i : Nat) (r : Request), reqs[i]? = some r →
        (splitOutputsFrom outs 0 reqs)[i]? =
          some (outs.map (fun p => (p.1,
            sliceTensor p.2 (((reqs.take i).map batchSizeOf).sum) (batchSizeOf r))))) ∧
    (∀ nm t, (nm, t) ∈ outs → t.rows.length = (reqs.map batchSizeOf).sum →
      ((splitOutputsFrom outs 0 reqs).map (fun res => (getTensor res nm).rows)).flatten =
        t.rows) := by
  have hchk : (reqs.drop 1).all
      (fun r => keysEqSet (keySet (reqs.headD [])) (keySet r)) = true := by
    rw [List.all_eq_true]
    intro r hr
    have hrm : r ∈ reqs := (List.drop_sublist 1 reqs).subset hr
    exact (keysEqSet_iff _ _).mpr (fun s => (hkeys r hrm s).symm)
  refine ⟨?_, ?_, ?_, ?_⟩
  · rw [batch_eq, if_pos hchk, hout]
    rfl
  · intro nm hnm
    refine ⟨?_, ?_, ?_⟩
    · exact lookup_map_self (fun nm => concatTensors (reqs.map (fun r => getTensor r nm)))
        (keySet (reqs.headD [])) nm hnm
    · simp [concatTensors, List.map_map]
      rfl
    · have hrows_eq : (concatTensors (reqs.map (fun r => getTensor r nm))).rows =
          (reqs.map (fun r => (getTensor r nm).rows)).flatten := by
        simp [concatTensors, List.map_map]
        rfl
      rw [hrows_eq, List.length_flatten, List.map_map]
      apply congrArg List.sum
      apply List.map_congr_left
      intro r hr
      obtain ⟨t, h1, h2⟩ := lookup_isSome_of_mem_keySet r nm ((hkeys r hr nm).mpr hnm)
      show (getTensor r nm).rows.length = batchSizeOf r
      rw [getTensor, h1]
      exact hbs r hr (nm, t) h2
  · refine ⟨splitOutputsFrom_length outs 0 reqs, ?_⟩
    intro i r h
    have := splitOutputsFrom_getElem outs 0 reqs i r h
    simpa using this
  · intro nm t hmem hlen
    have := splitOutputs_flatten outs nm t hmem hond 0 reqs
    rw [List.drop_zero, ← hlen, List.take_length] at this
    exact this

/-- C2 witness: two requests with batch sizes 2 and 1 merge into one
3-row input and split back at rows 0-1 and row 2. -/
theorem batch_merge_split_spec_witness :
    batch (fun inputs => PyOutput.dict inputs) ["o"]
        [[("x", ⟨[3], [[1, 2, 3], [4, 5, 6]]⟩)], [("x", ⟨[3], [[7, 8, 9]]⟩)]] =
      .ok (splitOutputsFrom [("x", ⟨[3], [[1, 2, 3], [4, 5, 6], [7, 8, 9]]⟩)] 0
        [[("x", ⟨[3], [[1, 2, 3], [4, 5, 6]]⟩)], [("x", ⟨[3], [[7, 8, 9]]⟩)]]) ∧
    (∀ nm ∈ keySet ([[("x", (⟨[3], [[1, 2, 3], [4, 5, 6]]⟩ : Tensor))],
        [("x", (⟨[3], [[7, 8, 9]]⟩ : Tensor))]].headD []),
      (mergeInputs [[("x", ⟨[3], [[1, 2, 3], [4, 5, 6]]⟩)], [("x", ⟨[3], [[7, 8, 9]]⟩)]]
          (keySet ([[("x", (⟨[3], [[1, 2, 3], [4, 5, 6]]⟩ : Tensor))],
            [("x", (⟨[3], [[7, 8, 9]]⟩ : Tensor))]].headD []))).lookup nm =
        some (concatTensors ([[("x", (⟨[3], [[1, 2, 3], [4, 5, 6]]⟩ : Tensor))],
          [("x", (⟨[3], [[7, 8, 9]]⟩ : Tensor))]].map (fun r => getTensor r nm))) ∧
      (concatTensors ([[("x", (⟨[3], [[1, 2, 3], [4, 5, 6]]⟩ : Tensor))],
          [("x", (⟨[3], [[7, 8, 9]]⟩ : Tensor))]].map (fun r => getTensor r nm))).rows =
        ([[("x", (⟨[3], [[1, 2, 3], [4, 5, 6]]⟩ : Tensor))],
          [("x", (⟨[3], [[7, 8, 9]]⟩ : Tensor))]].map
            (fun r => (getTensor r nm).rows)).flatten ∧
      (concatTensors ([[("x", (⟨[3], [[1, 2, 3], [4, 5, 6]]⟩ : Tensor))],
          [("x", (⟨[3], [[7, 8, 9]]⟩ : Tensor))]].map (fun r => getTensor r nm))).rows.length =
        ([[("x", (⟨[3], [[1, 2, 3], [4, 5, 6]]⟩ : Tensor))],
          [("x", (⟨[3], [[7, 8, 9]]⟩ : Tensor))]].map batchSizeOf).sum) ∧
    ((splitOutputsFrom [("x", ⟨[3], [[1, 2, 3], [4, 5, 6], [7, 8, 9]]⟩)] 0
        [[("x", ⟨[3], [[1, 2, 3], [4, 5, 6]]⟩)], [("x", ⟨[3], [[7, 8, 9]]⟩)]]).length =
      [[("x", (⟨[3], [[1, 2, 3], [4, 5, 6]]⟩ : Tensor))],
        [("x", (⟨[3], [[7, 8, 9]]⟩ : Tensor))]].length ∧
      ∀ (i : Nat) (r : Request),
        [[("x", (⟨[3], [[1, 2, 3], [4, 5, 6]]⟩ : Tensor))],
          [("x", (⟨[3], [[7, 8, 9]]⟩ : Tensor))]][i]? = some r →
        (splitOutputsFrom [("x", ⟨[3], [[1, 2, 3], [4, 5, 6], [7, 8, 9]]⟩)] 0
          [[("x", ⟨[3], [[1, 2, 3], [4, 5, 6]]⟩)], [("x", ⟨[3], [[7, 8, 9]]⟩)]])[i]? =
          some ([("x", (⟨[3], [[1, 2, 3], [4, 5, 6], [7, 8, 9]]⟩ : Tensor))].map
            (fun p => (p.1, sliceTensor p.2
              ((([[("x", (⟨[3], [[1, 2, 3], [4, 5, 6]]⟩ : Tensor))],
                [("x", (⟨[3], [[7, 8, 9]]⟩ : Tensor))]].take i).map batchSizeOf).sum)
              (batchSizeOf r))))) ∧
    (∀ nm t, (nm, t) ∈ [("x", (⟨[3], [[1, 2, 3], [4, 5, 6], [7, 8, 9]]⟩ : Tensor))] →
      t.rows.length = ([[("x", (⟨[3], [[1, 2, 3], [4, 5, 6]]⟩ : Tensor))],
        [("x", (⟨[3], [[7, 8, 9]]⟩ : Tensor))]].map batchSizeOf).sum →
      ((splitOutputsFrom [("x", ⟨[3], [[1, 2, 3], [4, 5, 6], [7, 8, 9]]⟩)] 0
          [[("x", ⟨[3], [[1, 2, 3], [4, 5, 6]]⟩)], [("x", ⟨[3], [[7, 8, 9]]⟩)]]).map
        (fun res => (getTensor res nm).rows)).flatten = t.rows) :=
  batch_merge_split_spec (fun inputs => PyOutput.dict inputs) ["o"]
    [[("x", ⟨[3], [[1, 2, 3], [4, 5, 6]]⟩)], [("x", ⟨[3], [[7, 8, 9]]⟩)]]
    [("x", ⟨[3], [[1, 2, 3], [4, 5, 6], [7, 8, 9]]⟩)]
    (by decide)
    (by
      intro r hr s
      rcases List.mem_cons.mp hr with rfl | hr2
      · exact Iff.rfl
      · rcases List.mem_cons.mp hr2 with rfl | hr3
        · exact Iff.rfl
        · cases hr3)
    (by decide) (by decide) (by decide)

end PyTriton

namespace PyTriton

/-- C1: for both grouping decorators, whenever the wrapped stage returns
exactly one result per request of each dispatched group, in that group's
request order, the output list aligns index-for-index with the input
list: its length equals the input length and its i-th element is the
result the wrapped stage produced for the i-th request (the element at
that request's rank inside its group's result list), regardless of the
internal sort-and-group reordering. -/
theorem grouping_order_round_trip (f : List Request → List γ)
    (hf : ∀ l, (f l).length = l.length) (inputs : List Request)
    (_hne : inputs ≠ []) (ks : List String) :
    ((group_by_keys f inputs).length = inputs.length ∧
      ∀ (i : Nat) (r : Request), inputs[i]? = some r →
        (group_by_keys f inputs)[i]? =
          (f (grpOf sortedKeys (sortedKeys r) inputs))[
            rankOf sortedKeys (sortedKeys r) inputs i]?) ∧
    ((group_by_values ks f inputs).length = inputs.length ∧
      ∀ (i : Nat) (r : Request), inputs[i]? = some r →
        (group_by_values ks f inputs)[i]? =
          (f (grpOf (groupValKey ks) (groupValKey ks r) inputs))[
            rankOf (groupValKey ks) (groupValKey ks r) inputs i]?) :=
  ⟨runGrouped_spec (listOrd strOrd) sortedKeys f hf inputs,
    runGrouped_spec valKeyOrd (groupValKey ks) f hf inputs⟩

/-- C1 witness: three requests, two sharing a key set, one apart; the
wrapped stage maps each request to its size. -/
theorem grouping_order_round_trip_witness :
    ((group_by_keys (fun l => l.map List.length)
        [[("a", ⟨[], [[1]]⟩), ("b", ⟨[], [[2]]⟩)], [("a", ⟨[], [[3]]⟩)],
          [("a", ⟨[], [[4]]⟩), ("b", ⟨[], [[5]]⟩)]]).length =
      [[("a", (⟨[], [[1]]⟩ : Tensor)), ("b", ⟨[], [[2]]⟩)], [("a", ⟨[], [[3]]⟩)],
        [("a", ⟨[], [[4]]⟩), ("b", ⟨[], [[5]]⟩)]].length ∧
      ∀ (i : Nat) (r : Request),
        [[("a", (⟨[], [[1]]⟩ : Tensor)), ("b", ⟨[], [[2]]⟩)], [("a", ⟨[], [[3]]⟩)],
          [("a", ⟨[], [[4]]⟩), ("b", ⟨[], [[5]]⟩)]][i]? = some r →
        (group_by_keys (fun l => l.map List.length)
          [[("a", ⟨[], [[1]]⟩), ("b", ⟨[], [[2]]⟩)], [("a", ⟨[], [[3]]⟩)],
            [("a", ⟨[], [[4]]⟩), ("b", ⟨[], [[5]]⟩)]])[i]? =
          ((fun l => l.map List.length)
            (grpOf sortedKeys (sortedKeys r)
              [[("a", ⟨[], [[1]]⟩), ("b", ⟨[], [[2]]⟩)], [("a", ⟨[], [[3]]⟩)],
                [("a", ⟨[], [[4]]⟩), ("b", ⟨[], [[5]]⟩)]]))[
            rankOf sortedKeys (sortedKeys r)
              [[("a", ⟨[], [[1]]⟩), ("b", ⟨[], [[2]]⟩)], [("a", ⟨[], [[3]]⟩)],
                [("a", ⟨[], [[4]]⟩), ("b", ⟨[], [[5]]⟩)]] i]?) ∧
    ((group_by_values ["a"] (fun l => l.map List.length)
        [[("a", ⟨[], [[1]]⟩), ("b", ⟨[], [[2]]⟩)], [("a", ⟨[], [[3]]⟩)],
          [("a", ⟨[], [[4]]⟩), ("b", ⟨[], [[5]]⟩)]]).length =
      [[("a", (⟨[], [[1]]⟩ : Tensor)), ("b", ⟨[], [[2]]⟩)], [("a", ⟨[], [[3]]⟩)],
        [("a", ⟨[], [[4]]⟩), ("b", ⟨[], [[5]]⟩)]].length ∧
      ∀ (i : Nat) (r : Request),
        [[("a", (⟨[], [[1]]⟩ : Tensor)), ("b", ⟨[], [[2]]⟩)], [("a", ⟨[], [[3]]⟩)],
          [("a", ⟨[], [[4]]⟩), ("b", ⟨[], [[5]]⟩)]][i]? = some r →
        (group_by_values ["a"] (fun l => l.map List.length)
          [[("a", ⟨[], [[1]]⟩), ("b", ⟨[], [[2]]⟩)], [("a", ⟨[], [[3]]⟩)],
            [("a", ⟨[], [[4]]⟩), ("b", ⟨[], [[5]]⟩)]])[i]? =
          ((fun l => l.map List.length)
            (grpOf (groupValKey ["a"]) (groupValKey ["a"] r)
              [[("a", ⟨[], [[1]]⟩), ("b", ⟨[], [[2]]⟩)], [("a", ⟨[], [[3]]⟩)],
                [("a", ⟨[], [[4]]⟩), ("b", ⟨[], [[5]]⟩)]]))[
            rankOf (groupValKey ["a"]) (groupValKey ["a"] r)
              [[("a", ⟨[], [[1]]⟩), ("b", ⟨[], [[2]]⟩)], [("a", ⟨[], [[3]]⟩)],
                [("a", ⟨[], [[4]]⟩), ("b", ⟨[], [[5]]⟩)]] i]?) :=
  grouping_order_round_trip (fun l => l.map List.length)
    (fun l => by simp)
    [[("a", ⟨[], [[1]]⟩), ("b", ⟨[], [[2]]⟩)], [("a", ⟨[], [[3]]⟩)],
      [("a", ⟨[], [[4]]⟩), ("b", ⟨[], [[5]]⟩)]]
    (by decide) ["a"]

theorem valueComponent_none {r : Request} {k : String} (h : r.lookup k = none) :
    valueComponent k r = ([-1], [-1]) := by
  unfold valueComponent
  rw [h]

theorem valueComponent_some {r : Request} {k : String} {t : Tensor}
    (h : r.lookup k = some t) :
    valueComponent k r =
      (((uniqueRows t.rows).length : Int) :: t.rowShape.map Int.ofNat,
        (uniqueRows t.rows).flatten) := by
  unfold valueComponent
  rw [h]

/-- C5: under `group_by_values(keys)`, two requests are dispatched to the
wrapped function in the same call iff their per-key group components
agree on every requested key; and component equality holds exactly when
both lack the key, or both have it with the same deduplicated-value
tensor (same shape, same flattened contents). -/
theorem group_by_values_same_call (ks : List String) (inputs : List Request)
    (i j : Nat) (a b : Request) (hia : inputs[i]? = some a)
    (hjb : inputs[j]? = some b) :
    ((∃ g ∈ callGroups valKeyOrd (groupValKey ks) inputs, (i, a) ∈ g ∧ (j, b) ∈ g) ↔
      ∀ k ∈ ks, valueComponent k a = valueComponent k b) ∧
    (∀ (r r' : Request) (k : String),
      valueComponent k r = valueComponent k r' ↔
        ((r.lookup k = none ∧ r'.lookup k = none) ∨
         (∃ t t', r.lookup k = some t ∧ r'.lookup k = some t' ∧
           (uniqueRows t.rows).length = (uniqueRows t'.rows).length ∧
           t.rowShape = t'.rowShape ∧
           (uniqueRows t.rows).flatten = (uniqueRows t'.rows).flatten))) := by
  constructor
  · constructor
    · rintro ⟨g, hg, hig, hjg⟩
      have hconst := groupRuns_const
        (fun p : Nat × Request => groupValKey ks p.2)
        (sortByKey valKeyOrd (fun p : Nat × Request => groupValKey ks p.2)
          (tagFrom 0 inputs)) g hg (i, a) hig (j, b) hjg
      intro k hk
      exact List.map_eq_map_iff.mp hconst k hk
    · intro hcomp
      have hkey : groupValKey ks a = groupValKey ks b := List.map_congr_left hcomp
      have hmem_i : (i, a) ∈ sortByKey valKeyOrd
          (fun p : Nat × Request => groupValKey ks p.2) (tagFrom 0 inputs) :=
        (sortByKey_perm _ _ _).mem_iff.mpr (by simpa using tagFrom_mem 0 hia)
      have hmem_j : (j, b) ∈ sortByKey valKeyOrd
          (fun p : Nat × Request => groupValKey ks p.2) (tagFrom 0 inputs) :=
        (sortByKey_perm _ _ _).mem_iff.mpr (by simpa using tagFrom_mem 0 hjb)
      have hsorted := sortByKey_sorted valKeyOrd
        (fun p : Nat × Request => groupValKey ks p.2) (tagFrom 0 inputs)
      have hg := groupRuns_filter_mem valKeyOrd
        (fun p : Nat × Request => groupValKey ks p.2) _ hsorted (i, a) hmem_i
      refine ⟨_, hg, ?_, ?_⟩
      · exact List.mem_filter.mpr ⟨hmem_i, decide_eq_true rfl⟩
      · refine List.mem_filter.mpr ⟨hmem_j, decide_eq_true ?_⟩
        show groupValKey ks b = groupValKey ks a
        exact hkey.symm
  · intro r r' k
    cases hr : r.lookup k with
    | none =>
      cases hr' : r'.lookup k with
      | none =>
        rw [valueComponent_none hr, valueComponent_none hr']
        simp [hr, hr']
      | some t' =>
        rw [valueComponent_none hr, valueComponent_some hr']
        constructor
        · intro h
          exfalso
          have h2 := congrArg (fun p : List Int × List Int => p.1.headD 0) h
          simp at h2
        · rintro (⟨h1, h2⟩ | ⟨t1, t2, h1, h2, h3⟩)
          · exact Option.noConfusion h2
          · exact Option.noConfusion h1
    | some t =>
      cases hr' : r'.lookup k with
      | none =>
        rw [valueComponent_some hr, valueComponent_none hr']
        constructor
        · intro h
          exfalso
          have h2 := congrArg (fun p : List Int × List Int => p.1.headD 0) h
          simp at h2
        · rintro (⟨h1, h2⟩ | ⟨t1, t2, h1, h2, h3⟩)
          · exact Option.noConfusion h1
          · exact Option.noConfusion h2
      | some t' =>
        rw [valueComponent_some hr, valueComponent_some hr']
        constructor
        · intro h
          rw [Prod.mk.injEq] at h
          obtain ⟨h1, h2⟩ := h
          rw [List.cons.injEq] at h1
          obtain ⟨hlen, hshape⟩ := h1
          refine Or.inr ⟨t, t', rfl, rfl, ?_, ?_, h2⟩
          · exact_mod_cast hlen
          · have hinj : Function.Injective Int.ofNat := fun x y hxy => Int.ofNat.inj hxy
            exact List.map_injective_iff.mpr hinj hshape
        · rintro (⟨h1, _⟩ | ⟨t1, t2, h1, h2, hlen, hshape, hflat⟩)
          · exact Option.noConfusion h1
          · obtain rfl := Option.some_inj.mp h1
            obtain rfl := Option.some_inj.mp h2
            rw [Prod.mk.injEq, List.cons.injEq]
            refine ⟨⟨by exact_mod_cast hlen, by rw [hshape]⟩, hflat⟩

/-- C5 witness: two requests whose "t" tensors deduplicate to the same
single value land in the same call. -/
theorem group_by_values_same_call_witness :
    ((∃ g ∈ callGroups valKeyOrd (groupValKey ["t"])
        [[("t", ⟨[], [[1], [1]]⟩)], [("t", ⟨[], [[1]]⟩)]],
      (0, [("t", (⟨[], [[1], [1]]⟩ : Tensor))]) ∈ g ∧
        (1, [("t", (⟨[], [[1]]⟩ : Tensor))]) ∈ g) ↔
      ∀ k ∈ ["t"], valueComponent k [("t", (⟨[], [[1], [1]]⟩ : Tensor))] =
        valueComponent k [("t", (⟨[], [[1]]⟩ : Tensor))]) ∧
    (∀ (r r' : Request) (k : String),
      valueComponent k r = valueComponent k r' ↔
        ((r.lookup k = none ∧ r'.lookup k = none) ∨
         (∃ t t', r.lookup k = some t ∧ r'.lookup k = some t' ∧
           (uniqueRows t.rows).length = (uniqueRows t'.rows).length ∧
           t.rowShape = t'.rowShape ∧
           (uniqueRows t.rows).flatten = (uniqueRows t'.rows).flatten))) :=
  group_by_values_same_call ["t"]
    [[("t", ⟨[], [[1], [1]]⟩)], [("t", ⟨[], [[1]]⟩)]] 0 1
    [("t", ⟨[], [[1], [1]]⟩)] [("t", ⟨[], [[1]]⟩)] (by decide) (by decide)

end PyTriton
